import Mathlib

/-!
# Verification of the `shapes` software 3D renderer

A shallow embedding of the renderer's core in Lean 4.  Scalars of the
source (`f32`) are modelled as exact rationals `ℚ`; the opaque numeric
primitives `f32::sin`, `f32::cos` and `f32::sqrt` are taken as function
parameters, so every statement holds for any interpretation of them
(witnesses instantiate them with concrete total functions).

Files embedded:
* `src/matrix.rs`   — fixed-size matrices, determinant, adjugate inverse;
* `src/geo.rs`, `src/world/geo.rs` — points, homogeneous conversion, cross;
* `src/render.rs`   — visibility stage (rotate/translate, near-plane filter,
  back-face classification, viewport test) and Bresenham line drawing;
* `src/screen_buffer.rs` — z-buffered edge-function triangle fill;
* `src/world/camera.rs`  — camera state machine and its cached matrix;
* `src/world/three_dim.rs` — mesh object, `scale`.
-/

namespace Shapes

/-- `Matrix<A, B>` of `src/matrix.rs`: `data[row][col]` becomes a function
`Fin A → Fin B → ℚ` (row first, column second, matching `self.data[y][x]`,
i.e. the source's `Index` tuple `(x, y)` reads `data[y][x]`). -/
abbrev Matrix (A B : ℕ) := Fin A → Fin B → ℚ

/-- `vector_dot` (`matrix.rs`): sum of componentwise products. -/
def vector_dot {N : ℕ} (lh rh : Fin N → ℚ) : ℚ := ∑ i, lh i * rh i

/-- Matrix product (`impl ops::Mul<Matrix<B, C>> for Matrix<A, B>`):
`res[(x, y)] = dot(row y of lhs, col x of rhs)`. -/
def Matrix.mul {A B C : ℕ} (m : Matrix A B) (n : Matrix B C) : Matrix A C :=
  fun y x => vector_dot (fun k => m y k) (fun k => n k x)

/-- `Matrix::transpose`: `res[(y, x)] = self.data[y][x]`, i.e.
`res.data[x][y] = self.data[y][x]`. -/
def Matrix.transpose {A B : ℕ} (m : Matrix A B) : Matrix B A :=
  fun y x => m x y

/-- `Matrix::scalar`: `res[(x, y)] = self.data[y][x] * by`, i.e. every entry
is multiplied by the factor. -/
def Matrix.scalar {A B : ℕ} (m : Matrix A B) (c : ℚ) : Matrix A B :=
  fun y x => m y x * c

/-- The row/column renumbering performed by `Matrix::minor_matrix`'s loops:
source index `i` of the minor corresponds to index `i` of the original when
`i < remove`, and to `i + 1` otherwise. -/
def skipIdx {n : ℕ} (remove : Fin (n + 1)) (i : Fin n) : Fin (n + 1) :=
  if (i : ℕ) < (remove : ℕ) then i.castSucc else i.succ

/-- `Matrix::minor_matrix::<B>(remove_x, remove_y)`: drop row `remove_y` and
column `remove_x`, keeping the remaining entries in order. -/
def Matrix.minor_matrix {n : ℕ} (m : Matrix (n + 1) (n + 1))
    (remove_x remove_y : Fin (n + 1)) : Matrix n n :=
  fun y x => m (skipIdx remove_y y) (skipIdx remove_x x)

/-- `Matrix::<2,2>::determinant`. -/
def Matrix.determinant2 (m : Matrix 2 2) : ℚ :=
  m 0 0 * m 1 1 - m 0 1 * m 1 0

/-- `Matrix::<3,3>::determinant`. -/
def Matrix.determinant3 (m : Matrix 3 3) : ℚ :=
  let a := m 1 1 * m 2 2 - m 1 2 * m 2 1
  let b := m 1 0 * m 2 2 - m 1 2 * m 2 0
  let c := m 1 0 * m 2 1 - m 1 1 * m 2 0
  m 0 0 * a - m 0 1 * b + m 0 2 * c

/-- `Matrix::<3,3>::matrix_of_minors`: `res[(xi, yi)] = minor(xi, yi).determinant()`,
so row `y`, column `x` holds the determinant of the minor dropping column `x`
and row `y`. -/
def Matrix.matrix_of_minors3 (m : Matrix 3 3) : Matrix 3 3 :=
  fun y x => (m.minor_matrix x y).determinant2

/-- `Matrix::<4,4>::determinant`: cofactor expansion along the first row. -/
def Matrix.determinant4 (m : Matrix 4 4) : ℚ :=
  let a := (m.minor_matrix 0 0).determinant3
  let b := (m.minor_matrix 1 0).determinant3
  let c := (m.minor_matrix 2 0).determinant3
  let d := (m.minor_matrix 3 0).determinant3
  m 0 0 * a - m 0 1 * b + m 0 2 * c - m 0 3 * d

/-- `Matrix::<4,4>::matrix_of_minors`. -/
def Matrix.matrix_of_minors4 (m : Matrix 4 4) : Matrix 4 4 :=
  fun y x => (m.minor_matrix x y).determinant3

/-- `Matrix::determinant_from_minors`: alternating-sign weighted sum of the
first row of the matrix against the first row of the matrix of minors. -/
def Matrix.determinant_from_minors {A : ℕ} (m minors : Matrix (A + 1) (A + 1)) : ℚ :=
  ∑ x : Fin (A + 1),
    if (x : ℕ) % 2 = 0 then m 0 x * minors 0 x else -(m 0 x * minors 0 x)

/-- `Matrix::apply_alternating_signs`: checkerboard cofactor sign pattern. -/
def Matrix.apply_alternating_signs {A : ℕ} (m : Matrix A A) : Matrix A A :=
  fun y x => m y x * (if ((x : ℕ) % 2 + (y : ℕ) % 2) % 2 = 0 then 1 else -1)

/-- `Matrix::<3,3>::inverse`: adjugate method, scaled by the reciprocal of the
determinant recomputed from the matrix of minors. -/
def Matrix.inverse3 (m : Matrix 3 3) : Matrix 3 3 :=
  let minors := m.matrix_of_minors3
  let adjugate := minors.apply_alternating_signs.transpose
  let det := m.determinant_from_minors minors
  adjugate.scalar det⁻¹

/-- `Matrix::<4,4>::inverse`. -/
def Matrix.inverse4 (m : Matrix 4 4) : Matrix 4 4 :=
  let minors := m.matrix_of_minors4
  let adjugate := minors.apply_alternating_signs.transpose
  let det := m.determinant_from_minors minors
  adjugate.scalar det⁻¹

/-- Modelled from the spec: `matrix.rs` defines no `Matrix<2,2>::inverse`
(2×2 matrices only get `determinant`); §4.1 specifies inversion generically as
"matrix of minors → alternating checkerboard signs (cofactors) → transpose
(adjugate) → scale by the reciprocal of the determinant", with the determinant
of the 1×1 minor being its single entry.  This is that recipe at size 2,
written with the source's generic `minor_matrix`, `apply_alternating_signs`,
`transpose`, `determinant_from_minors` and `scalar`. -/
def Matrix.matrix_of_minors2 (m : Matrix 2 2) : Matrix 2 2 :=
  fun y x => (m.minor_matrix x y) 0 0

/-- Modelled from the spec: the §4.1 adjugate inversion recipe at size 2
(see `Matrix.matrix_of_minors2`). -/
def Matrix.inverse2 (m : Matrix 2 2) : Matrix 2 2 :=
  let minors := m.matrix_of_minors2
  let adjugate := minors.apply_alternating_signs.transpose
  let det := m.determinant_from_minors minors
  adjugate.scalar det⁻¹

/-- The identity matrix, the comparison target of the spec's inversion
property (not itself a source operation). -/
def identityMatrix (A : ℕ) : Matrix A A :=
  fun y x => if y = x then 1 else 0

/-! Evaluation lemmas for small `Fin` literals, used to reduce the index
arithmetic of `skipIdx` and the alternating signs on concrete indices. -/

lemma fv20 : ((0 : Fin 2) : ℕ) = 0 := rfl
lemma fv21 : ((1 : Fin 2) : ℕ) = 1 := rfl
lemma fv30 : ((0 : Fin 3) : ℕ) = 0 := rfl
lemma fv31 : ((1 : Fin 3) : ℕ) = 1 := rfl
lemma fv32 : ((2 : Fin 3) : ℕ) = 2 := rfl
lemma fv40 : ((0 : Fin 4) : ℕ) = 0 := rfl
lemma fv41 : ((1 : Fin 4) : ℕ) = 1 := rfl
lemma fv42 : ((2 : Fin 4) : ℕ) = 2 := rfl
lemma fv43 : ((3 : Fin 4) : ℕ) = 3 := rfl
lemma cs20 : Fin.castSucc (0 : Fin 2) = (0 : Fin 3) := rfl
lemma cs21 : Fin.castSucc (1 : Fin 2) = (1 : Fin 3) := rfl
lemma cs30 : Fin.castSucc (0 : Fin 3) = (0 : Fin 4) := rfl
lemma cs31 : Fin.castSucc (1 : Fin 3) = (1 : Fin 4) := rfl
lemma cs32 : Fin.castSucc (2 : Fin 3) = (2 : Fin 4) := rfl
lemma su20 : Fin.succ (0 : Fin 2) = (1 : Fin 3) := rfl
lemma su21 : Fin.succ (1 : Fin 2) = (2 : Fin 3) := rfl
lemma su30 : Fin.succ (0 : Fin 3) = (1 : Fin 4) := rfl
lemma su31 : Fin.succ (1 : Fin 3) = (2 : Fin 4) := rfl
lemma su32 : Fin.succ (2 : Fin 3) = (3 : Fin 4) := rfl

lemma det_from_minors2 (m : Matrix 2 2) :
    m.determinant_from_minors m.matrix_of_minors2 = m.determinant2 := by
  simp [Matrix.determinant_from_minors, Matrix.matrix_of_minors2,
    Matrix.minor_matrix, Matrix.determinant2, skipIdx, Fin.sum_univ_two]
  ring

lemma det_from_minors3 (m : Matrix 3 3) :
    m.determinant_from_minors m.matrix_of_minors3 = m.determinant3 := by
  simp [Matrix.determinant_from_minors, Matrix.matrix_of_minors3,
    Matrix.minor_matrix, Matrix.determinant2, Matrix.determinant3, skipIdx,
    Fin.sum_univ_three, fv20, fv21, fv30, fv31, fv32, fv40, fv41, fv42, fv43, cs20, cs21, cs30, cs31, cs32, su20, su21, su30, su31, su32, Fin.ext_iff]
  ring

set_option maxHeartbeats 1000000 in
lemma det_from_minors4 (m : Matrix 4 4) :
    m.determinant_from_minors m.matrix_of_minors4 = m.determinant4 := by
  simp [Matrix.determinant_from_minors, Matrix.matrix_of_minors4,
    Matrix.minor_matrix, Matrix.determinant3, Matrix.determinant4,
    Matrix.determinant2, skipIdx, Fin.sum_univ_four, fv20, fv21, fv30, fv31, fv32, fv40, fv41, fv42, fv43, cs20, cs21, cs30, cs31, cs32, su20, su21, su30, su31, su32, Fin.ext_iff]
  ring

lemma adjugate_mul2 (m : Matrix 2 2) :
    Matrix.mul (m.matrix_of_minors2.apply_alternating_signs.transpose) m
      = (identityMatrix 2).scalar m.determinant2 := by
  funext y x
  fin_cases y <;> fin_cases x <;>
    simp [Matrix.mul, vector_dot, Matrix.transpose, Matrix.scalar,
      Matrix.apply_alternating_signs, Matrix.matrix_of_minors2,
      Matrix.minor_matrix, Matrix.determinant2, identityMatrix, skipIdx,
      Fin.sum_univ_two, fv20, fv21, fv30, fv31, fv32, fv40, fv41, fv42, fv43, cs20, cs21, cs30, cs31, cs32, su20, su21, su30, su31, su32, Fin.ext_iff] <;> ring

set_option maxHeartbeats 1000000 in
lemma adjugate_mul3 (m : Matrix 3 3) :
    Matrix.mul (m.matrix_of_minors3.apply_alternating_signs.transpose) m
      = (identityMatrix 3).scalar m.determinant3 := by
  funext y x
  fin_cases y <;> fin_cases x <;>
    simp [Matrix.mul, vector_dot, Matrix.transpose, Matrix.scalar,
      Matrix.apply_alternating_signs, Matrix.matrix_of_minors3,
      Matrix.minor_matrix, Matrix.determinant2, Matrix.determinant3,
      identityMatrix, skipIdx, Fin.sum_univ_three, fv20, fv21, fv30, fv31, fv32, fv40, fv41, fv42, fv43, cs20, cs21, cs30, cs31, cs32, su20, su21, su30, su31, su32, Fin.ext_iff] <;> ring

set_option maxHeartbeats 4000000 in
lemma adjugate_mul4 (m : Matrix 4 4) :
    Matrix.mul (m.matrix_of_minors4.apply_alternating_signs.transpose) m
      = (identityMatrix 4).scalar m.determinant4 := by
  funext y x
  fin_cases y <;> fin_cases x <;>
    simp [Matrix.mul, vector_dot, Matrix.transpose, Matrix.scalar,
      Matrix.apply_alternating_signs, Matrix.matrix_of_minors4,
      Matrix.minor_matrix, Matrix.determinant2, Matrix.determinant3,
      Matrix.determinant4, identityMatrix, skipIdx, Fin.sum_univ_four,
      fv20, fv21, fv30, fv31, fv32, fv40, fv41, fv42, fv43, cs20, cs21, cs30, cs31, cs32, su20, su21, su30, su31, su32, Fin.ext_iff] <;> ring

lemma mul_scalar_left {A B C : ℕ} (m : Matrix A B) (n : Matrix B C) (c : ℚ) :
    Matrix.mul (m.scalar c) n = (Matrix.mul m n).scalar c := by
  funext y x
  simp [Matrix.mul, Matrix.scalar, vector_dot, Finset.sum_mul]
  exact Finset.sum_congr rfl fun k _ => by ring

lemma scalar_identity_inv {A : ℕ} (d : ℚ) (hd : d ≠ 0) :
    ((identityMatrix A).scalar d).scalar d⁻¹ = identityMatrix A := by
  funext y x
  simp only [Matrix.scalar, identityMatrix]
  rcases eq_or_ne y x with h | h
  · simp [h, mul_inv_cancel₀ hd]
  · simp [h]

lemma inverse2_mul (m : Matrix 2 2) (h : m.determinant2 ≠ 0) :
    Matrix.mul m.inverse2 m = identityMatrix 2 := by
  show Matrix.mul (Matrix.scalar _ _) m = _
  rw [mul_scalar_left, adjugate_mul2, det_from_minors2, scalar_identity_inv _ h]

lemma inverse3_mul (m : Matrix 3 3) (h : m.determinant3 ≠ 0) :
    Matrix.mul m.inverse3 m = identityMatrix 3 := by
  show Matrix.mul (Matrix.scalar _ _) m = _
  rw [mul_scalar_left, adjugate_mul3, det_from_minors3, scalar_identity_inv _ h]

lemma inverse4_mul (m : Matrix 4 4) (h : m.determinant4 ≠ 0) :
    Matrix.mul m.inverse4 m = identityMatrix 4 := by
  show Matrix.mul (Matrix.scalar _ _) m = _
  rw [mul_scalar_left, adjugate_mul4, det_from_minors4, scalar_identity_inv _ h]

/-- C1: for every square matrix `M` of size 2×2, 3×3 or 4×4 whose determinant
is nonzero, `M.inverse() * M` is the identity matrix.  Arithmetic is modelled
exactly over `ℚ`, where "within floating tolerance of the identity" becomes
exact equality.  The 2×2 inverse is absent from `src/matrix.rs` and is
modelled from the spec's §4.1 adjugate recipe (`Matrix.inverse2`); the 3×3 and
4×4 inverses are translated from the source. -/
theorem inverse_mul_identity (M2 : Matrix 2 2) (M3 : Matrix 3 3) (M4 : Matrix 4 4)
    (h2 : M2.determinant2 ≠ 0) (h3 : M3.determinant3 ≠ 0)
    (h4 : M4.determinant4 ≠ 0) :
    Matrix.mul M2.inverse2 M2 = identityMatrix 2 ∧
      Matrix.mul M3.inverse3 M3 = identityMatrix 3 ∧
      Matrix.mul M4.inverse4 M4 = identityMatrix 4 :=
  ⟨inverse2_mul M2 h2, inverse3_mul M3 h3, inverse4_mul M4 h4⟩

/-- A concrete invertible 2×2 matrix for the C1 witness. -/
def witnessM2 : Matrix 2 2 := fun y x => if y = x then 2 else 1

/-- A concrete invertible 3×3 matrix for the C1 witness. -/
def witnessM3 : Matrix 3 3 := fun y x => if y = x then 2 else 0

/-- A concrete invertible 4×4 matrix for the C1 witness. -/
def witnessM4 : Matrix 4 4 := fun y x => if y = x then 3 else 0

/-- Witness for C1 at concrete matrices with nonzero determinants. -/
theorem inverse_mul_identity_witness :
    Matrix.determinant2 witnessM2 ≠ 0 ∧
      Matrix.determinant3 witnessM3 ≠ 0 ∧
      Matrix.determinant4 witnessM4 ≠ 0 ∧
      Matrix.mul (Matrix.inverse2 witnessM2) witnessM2 = identityMatrix 2 ∧
      Matrix.mul (Matrix.inverse3 witnessM3) witnessM3 = identityMatrix 3 ∧
      Matrix.mul (Matrix.inverse4 witnessM4) witnessM4 = identityMatrix 4 := by
  have h2 : Matrix.determinant2 witnessM2 ≠ 0 := by
    norm_num [witnessM2, Matrix.determinant2, Fin.ext_iff, fv20, fv21]
  have h3 : Matrix.determinant3 witnessM3 ≠ 0 := by
    norm_num [witnessM3, Matrix.determinant3, Fin.ext_iff, fv30, fv31, fv32]
  have h4 : Matrix.determinant4 witnessM4 ≠ 0 := by
    norm_num [witnessM4, Matrix.determinant4, Matrix.determinant3,
      Matrix.minor_matrix, skipIdx, fv40, fv41, fv42, fv43, fv30, fv31, fv32,
      cs30, cs31, cs32, su30, su31, su32, Fin.ext_iff]
  obtain ⟨p2, p3, p4⟩ := inverse_mul_identity witnessM2 witnessM3 witnessM4 h2 h3 h4
  exact ⟨h2, h3, h4, p2, p3, p4⟩

/-! ## Points (`src/geo.rs`, `src/world/geo.rs`) -/

/-- `Point<D>`: a `D`-dimensional coordinate vector. -/
abbrev Point (D : ℕ) := Fin D → ℚ

/-- `Point::add` (componentwise). -/
def Point.add {D : ℕ} (p q : Point D) : Point D := fun i => p i + q i

/-- `Point::sub` (componentwise). -/
def Point.sub {D : ℕ} (p q : Point D) : Point D := fun i => p i - q i

/-- `Point::scale`: multiply every coordinate. -/
def Point.scale {D : ℕ} (p : Point D) (c : ℚ) : Point D := fun i => p i * c

/-- `Point::dot`. -/
def Point.dot {D : ℕ} (p q : Point D) : ℚ := ∑ i, p i * q i

/-- `Point::magnitude`: `sqrt` of the sum of squared coordinates; the opaque
`f32::sqrt` is the parameter `fsqrt`. -/
def Point.magnitude {D : ℕ} (fsqrt : ℚ → ℚ) (p : Point D) : ℚ :=
  fsqrt (∑ i, p i ^ 2)

/-- `Point::normalize`: scale by the reciprocal of the magnitude. -/
def Point.normalize {D : ℕ} (fsqrt : ℚ → ℚ) (p : Point D) : Point D :=
  p.scale (p.magnitude fsqrt)⁻¹

/-- `Point3::cross`. -/
def Point.cross (p q : Point 3) : Point 3 := fun i =>
  if i = 0 then p 1 * q 2 - p 2 * q 1
  else if i = 1 then -(p 0 * q 2 - p 2 * q 0)
  else p 0 * q 1 - p 1 * q 0

/-- `Point::to_matrix` / `to_tall_matrix`: a `D`-point as a `D×1` matrix. -/
def Point.to_matrix {D : ℕ} (p : Point D) : Matrix D 1 := fun i _ => p i

/-- `Matrix::tall_to_point`: first column of an `A×1` matrix. -/
def Matrix.tall_to_point {A : ℕ} (m : Matrix A 1) : Point A := fun i => m i 0

/-- `impl ops::Mul<Point<B>> for Matrix<A, B>`: matrix–vector product through
`to_matrix` and `tall_to_point`, as in the source. -/
def Matrix.mulPoint {A B : ℕ} (m : Matrix A B) (p : Point B) : Point A :=
  (m.mul p.to_matrix).tall_to_point

lemma mulPoint_apply {A B : ℕ} (m : Matrix A B) (p : Point B) (i : Fin A) :
    m.mulPoint p i = ∑ k, m i k * p k := by
  simp [Matrix.mulPoint, Matrix.mul, Matrix.tall_to_point, Point.to_matrix,
    vector_dot]

/-- `Point3::euc_to_hom`: append a fourth coordinate `1.0`. -/
def Point.euc_to_hom (p : Point 3) : Point 4 := fun i =>
  if i = 0 then p 0 else if i = 1 then p 1 else if i = 2 then p 2 else 1

/-- `Point4::hom_to_euc`: `assert_ne!(self[3], 0.0)` is modelled as `none`;
when the fourth component is exactly `1.0` the coordinates are returned
unchanged, otherwise each is divided by it. -/
def Point.hom_to_euc4 (p : Point 4) : Option (Point 3) :=
  if p 3 = 0 then none
  else if p 3 = 1 then
    some (fun i => if i = 0 then p 0 else if i = 1 then p 1 else p 2)
  else
    some (fun i => if i = 0 then p 0 / p 3 else if i = 1 then p 1 / p 3 else p 2 / p 3)

/-- `Point3::hom_to_euc` (the 3→2 variant used by the projection pipeline),
with the same `assert_ne!(self[2], 0.0)` modelled as `none`. -/
def Point.hom_to_euc3 (p : Point 3) : Option (Point 2) :=
  if p 2 = 0 then none
  else if p 2 = 1 then some (fun i => if i = 0 then p 0 else p 1)
  else some (fun i => if i = 0 then p 0 / p 2 else p 1 / p 2)

/-- C5: for every 3D point `p`, the round trip `p.euc_to_hom().hom_to_euc()`
returns exactly `p` (the appended fourth component is exactly `1.0`, so the
shortcut branch copies the coordinates bit for bit), and `hom_to_euc` on any
4D point whose fourth component is `0` fails the assertion (modelled as
`none`) rather than returning a point. -/
theorem hom_round_trip :
    (∀ p : Point 3, Point.hom_to_euc4 (Point.euc_to_hom p) = some p) ∧
      ∀ q : Point 4, q 3 = 0 → Point.hom_to_euc4 q = none := by
  constructor
  · intro p
    have h3 : Point.euc_to_hom p 3 = 1 := rfl
    rw [Point.hom_to_euc4, h3]
    norm_num
    funext i
    fin_cases i <;> rfl
  · intro q h
    rw [Point.hom_to_euc4, h]
    norm_num

/-- A concrete point at infinity for the C5 witness. -/
def witnessQ4 : Point 4 := fun i => if i = 3 then 0 else 1

/-- Witness for C5: the hypothesised half applied at a concrete 4D point with
fourth component `0`. -/
theorem hom_round_trip_witness :
    witnessQ4 3 = 0 ∧ Point.hom_to_euc4 witnessQ4 = none :=
  ⟨rfl, hom_round_trip.2 witnessQ4 rfl⟩

/-! ## Mesh object (`src/world/three_dim.rs`) -/

/-- `compute_extremes`: componentwise minima and maxima of the vertex list,
starting from `0.0` in every coordinate as in the source. -/
def compute_extremes (vertices : List (Point 3)) : Point 3 × Point 3 :=
  vertices.foldl
    (fun acc v => (fun i => min (acc.1 i) (v i), fun i => max (acc.2 i) (v i)))
    (fun _ => 0, fun _ => 0)

/-- `compute_size`: componentwise extent `max − min`. -/
def compute_size (vertices : List (Point 3)) : ℚ × ℚ × ℚ :=
  let e := compute_extremes vertices
  (e.2 0 - e.1 0, e.2 1 - e.1 1, e.2 2 - e.1 2)

/-- `map_faces`: materialize faces by indexing the vertex list.  The source
indexes `vertices[n]` (panicking out of range, a fatal load-time error per the
spec); out-of-range indices here default to the origin, and no claim touches
that case. -/
def map_faces (face_indexes : List (List ℕ)) (vertices : List (Point 3)) :
    List (List (Point 3)) :=
  face_indexes.map fun si => si.map fun n => vertices.getD n (fun _ => 0)

/-- `Object` (`src/world/three_dim.rs`): vertices, derived faces, index lists
and the derived bounding size. -/
structure Object where
  size : ℚ × ℚ × ℚ
  vertices : List (Point 3)
  faces : List (List (Point 3))
  face_indexes : List (List ℕ)

/-- `Object::new`. -/
def Object.new (vertices : List (Point 3)) (face_indexes : List (List ℕ)) : Object :=
  { size := compute_size vertices
    vertices := vertices
    faces := map_faces face_indexes vertices
    face_indexes := face_indexes }

/-- `Object::scale`: explicit fast-path no-op when the factor is exactly
`1.0`; otherwise scale every vertex and recompute size and faces. -/
def Object.scale (o : Object) (c : ℚ) : Object :=
  if c = 1 then o
  else
    let vertices := o.vertices.map fun v => v.scale c
    { size := compute_size vertices
      vertices := vertices
      faces := map_faces o.face_indexes vertices
      face_indexes := o.face_indexes }

/-- C8: `scale(1.0)` is a no-op: the object afterwards is identical
(bit for bit) to the object before — in particular `vertices()`, `faces()`
and the stored size are unchanged. -/
theorem scale_one_noop (o : Object) :
    o.scale 1 = o ∧ (o.scale 1).vertices = o.vertices ∧
      (o.scale 1).faces = o.faces ∧ (o.scale 1).size = o.size := by
  have h : o.scale 1 = o := by simp [Object.scale]
  exact ⟨h, by rw [h], by rw [h], by rw [h]⟩

/-! ## Camera (`src/world/camera.rs`)

The opaque `f32::sin` / `f32::cos` primitives used by
`make_rotation_matrix` are parameters `fsin` / `fcos`; `f32::sqrt` (used by
`point_to_view_matrix` through `normalize`) is `fsqrt`. -/

/-- The `X_AXIS` constant. -/
def xAxis : Point 3 := fun i => if i = 0 then 1 else 0

/-- The `Y_AXIS` constant. -/
def yAxis : Point 3 := fun i => if i = 1 then 1 else 0

/-- The `Z_AXIS` constant. -/
def zAxis : Point 3 := fun i => if i = 2 then 1 else 0

/-- `make_rotation_matrix` (`src/world/three_dim.rs`): general rotation from
Euler angles, with `f32::sin` / `f32::cos` as parameters. -/
def make_rotation_matrix (fsin fcos : ℚ → ℚ) (rx ry rz : ℚ) : Matrix 3 3 :=
  fun y x =>
    if y = 0 then
      if x = 0 then fcos rx * fcos ry
      else if x = 1 then fcos rx * fsin ry * fsin rz - fsin rx * fcos rz
      else fcos rx * fsin ry * fcos rz + fsin rx * fsin rz
    else if y = 1 then
      if x = 0 then fsin rx * fcos ry
      else if x = 1 then fsin rx * fsin ry * fsin rz + fcos rx * fcos rz
      else fsin rx * fsin ry * fcos rz - fcos rx * fsin rz
    else
      if x = 0 then -fsin ry
      else if x = 1 then fcos ry * fsin rz
      else fcos ry * fcos rz

/-- `rotate_point_with_matrix`: translate to the center, rotate, translate
back. -/
def rotate_point_with_matrix (p center : Point 3) (rot_matrix : Matrix 3 3) :
    Point 3 :=
  ((rot_matrix.mulPoint (p.sub center)).add center)

/-- `axes_transformation_matrix`: the new basis vectors as columns with the
origin in the fourth column, over an affine `[0 0 0 1]` last row. -/
def axes_transformation_matrix (new_x new_y new_z origin : Point 3) :
    Matrix 4 4 :=
  fun y x =>
    if h : (y : ℕ) < 3 then
      let i : Fin 3 := ⟨y, h⟩
      if x = 0 then new_x i
      else if x = 1 then new_y i
      else if x = 2 then new_z i
      else origin i
    else if x = 3 then 1 else 0

/-- `rotation_view_matrix`: rotate the world axes by the camera rotation,
build the axis-transformation matrix and invert it. -/
def rotation_view_matrix (fsin fcos : ℚ → ℚ) (origin : Point 3)
    (rotation : ℚ × ℚ × ℚ) : Matrix 4 4 :=
  let rm := make_rotation_matrix fsin fcos rotation.1 rotation.2.1 rotation.2.2
  (axes_transformation_matrix (rm.mulPoint xAxis) (rm.mulPoint yAxis)
    (rm.mulPoint zAxis) origin).inverse4

/-- `point_to_view_matrix`: look-at construction. -/
def point_to_view_matrix (fsqrt : ℚ → ℚ) (origin target up : Point 3) :
    Matrix 4 4 :=
  let z_axis := (target.sub origin).normalize fsqrt
  let x_axis := (up.cross z_axis).normalize fsqrt
  let y_axis := (z_axis.cross x_axis).normalize fsqrt
  (axes_transformation_matrix x_axis y_axis z_axis origin).inverse4

/-- The private `make_focal_matrix(cam_x, cam_y, aspect_ratio)` of
`camera.rs`. -/
def camera_make_focal_matrix (cam_x cam_y ar : ℚ) : Matrix 3 4 :=
  fun y x =>
    if y = 0 then
      if x = 0 then ar⁻¹ else if x = 3 then -cam_x else 0
    else if y = 1 then
      if x = 1 then 1 else if x = 3 then -cam_y else 0
    else
      if x = 2 then 1 else 0

/-- `Camera` state. -/
structure Camera where
  position : Point 3
  rotation : ℚ × ℚ × ℚ
  view_matrix : Matrix 4 4
  focal_matrix : Matrix 3 4
  combined_matrix : Matrix 3 4
  modified : Bool

/-- `Camera::new`. -/
def Camera.new (fsin fcos : ℚ → ℚ) (position : Point 3) (ar : ℚ) : Camera :=
  let rotation : ℚ × ℚ × ℚ := (0, 0, 0)
  let view_matrix := rotation_view_matrix fsin fcos position rotation
  let focal_matrix := camera_make_focal_matrix 0 0 ar
  { position := position
    rotation := rotation
    view_matrix := view_matrix
    focal_matrix := focal_matrix
    combined_matrix := focal_matrix.mul view_matrix
    modified := false }

/-- `Camera::move_to`: mutates only the position. -/
def Camera.move_to (c : Camera) (point : Point 3) : Camera :=
  { c with position := point }

/-- `Camera::set_rotation`: mutates only the rotation. -/
def Camera.set_rotation (c : Camera) (rotation : ℚ × ℚ × ℚ) : Camera :=
  { c with rotation := rotation }

/-- `Camera::point_to`: overwrites the view matrix only (the cached combined
matrix is left stale until the next `update`). -/
def Camera.point_to (fsqrt : ℚ → ℚ) (c : Camera) (point : Point 3) : Camera :=
  { c with view_matrix := point_to_view_matrix fsqrt c.position point yAxis }

/-- `Camera::update`: recompute the view matrix and the cached combined
matrix, and set the dirty flag. -/
def Camera.update (fsin fcos : ℚ → ℚ) (c : Camera) : Camera :=
  let view_matrix := rotation_view_matrix fsin fcos c.position c.rotation
  { c with
    view_matrix := view_matrix
    combined_matrix := c.focal_matrix.mul view_matrix
    modified := true }

/-- `Camera::get_and_clear_modified`: returns the dirty flag and clears it. -/
def Camera.get_and_clear_modified (c : Camera) : Bool × Camera :=
  if c.modified then (true, { c with modified := false }) else (false, c)

/-- The spec's camera invariant: the cached combined matrix equals
`focal_matrix * view_matrix`. -/
def combinedInvariant (c : Camera) : Prop :=
  c.combined_matrix = c.focal_matrix.mul c.view_matrix

/-- C6: the invariant `combined_matrix = focal_matrix * view_matrix` holds
after `Camera::new` and after any `update()`, and is preserved by every
operation that does not mutate the camera's matrices (`move_to`,
`set_rotation`, `get_and_clear_modified`), i.e. it continues to hold until
the next mutation of the matrices (`point_to` or the next `update`). -/
theorem camera_combined_invariant (fsin fcos : ℚ → ℚ) (p q : Point 3) (ar : ℚ)
    (r : ℚ × ℚ × ℚ) (c : Camera) (h : combinedInvariant c) :
    combinedInvariant (Camera.new fsin fcos p ar) ∧
      combinedInvariant (Camera.update fsin fcos c) ∧
      combinedInvariant (c.move_to q) ∧
      combinedInvariant (c.set_rotation r) ∧
      combinedInvariant c.get_and_clear_modified.2 := by
  refine ⟨rfl, rfl, h, h, ?_⟩
  unfold Camera.get_and_clear_modified
  split <;> exact h

/-- Witness for C6 at a concrete camera (built by `Camera::new`, where the
invariant holds definitionally), with concrete interpretations of
`sin`/`cos`. -/
theorem camera_combined_invariant_witness :
    combinedInvariant
        ((Camera.new (fun _ => 0) (fun _ => 1) (fun _ => 0) 1).move_to
          (fun _ => 1)) ∧
      combinedInvariant
        ((Camera.new (fun _ => 0) (fun _ => 1) (fun _ => 0) 1).set_rotation
          (1, 2, 3)) :=
  ⟨(camera_combined_invariant (fun _ => 0) (fun _ => 1) (fun _ => 0)
      (fun _ => 1) 1 (1, 2, 3)
      (Camera.new (fun _ => 0) (fun _ => 1) (fun _ => 0) 1) rfl).2.2.1,
    (camera_combined_invariant (fun _ => 0) (fun _ => 1) (fun _ => 0)
      (fun _ => 1) 1 (1, 2, 3)
      (Camera.new (fun _ => 0) (fun _ => 1) (fun _ => 0) 1) rfl).2.2.2.1⟩

/-! ## Visibility stage (`src/render.rs`, `impl Renderer for Object`)

The per-face pipeline of `Object::render`: rotate about the object center and
translate to the world position, drop surfaces with every vertex in front of
`z = 1` (near plane), classify against the camera (which sits at the origin
in this pipeline: the code subtracts `[0.0, 0.0, 0.0]`), then project and
keep only surfaces passing the viewport test.  The `triangles` vector built
by the second loop is modelled by `visible_triangles`. -/

/-- Truncation toward zero, the behaviour of Rust's `as i32` / `as isize`
casts on in-range values. -/
def ratTrunc (q : ℚ) : ℤ := if 0 ≤ q then ⌊q⌋ else -⌊-q⌋

/-- Saturating `f32 as u32` cast (negative values go to 0). -/
def ratToU32 (q : ℚ) : ℕ :=
  if q < 0 then 0 else min (ratTrunc q).toNat (2 ^ 32 - 1)

/-- `make_gray_color`: scale the intensity into `[min, max]`, to a byte, and
replicate it over the three channels. -/
def make_gray_color (intensity mn mx : ℚ) : ℕ :=
  let scaled := intensity * (mx - mn) + mn
  let c := ratToU32 (scaled * 255)
  (c <<< 16) ||| (c <<< 8) ||| c

/-- `SurfaceOrientation`. -/
inductive SurfaceOrientation
  | TowardsCamera
  | AwayFromCamera
deriving DecidableEq

/-- `Surface`. -/
structure Surface where
  vertices : List (Point 3)
  surface_normal : Point 3
  camera_surface_dot : ℚ
  orientation : SurfaceOrientation

/-- `Triangle` (screen-space, as pushed into the `triangles` vector). -/
structure Triangle where
  vertices : List (ℤ × ℤ)
  color : ℕ
deriving DecidableEq

/-- `make_focal_matrix` (`src/three_dim.rs`; no aspect ratio). -/
def make_focal_matrix (cam_x cam_y : ℚ) : Matrix 3 4 :=
  fun y x =>
    if y = 0 then if x = 0 then 1 else if x = 3 then -cam_x else 0
    else if y = 1 then if x = 1 then 1 else if x = 3 then -cam_y else 0
    else if x = 2 then 1 else 0

/-- The first stage of `Object::render`: rotate every vertex of a face about
the object center and translate by `state.position - center`. -/
def transform_vertices (fsin fcos : ℚ → ℚ) (center position : Point 3)
    (rotation : ℚ × ℚ × ℚ) (f : List (Point 3)) : List (Point 3) :=
  let transform_vector := position.sub center
  let rotation_matrix :=
    make_rotation_matrix fsin fcos rotation.1 rotation.2.1 rotation.2.2
  f.map fun p => (rotate_point_with_matrix p center rotation_matrix).add transform_vector

/-- The near-plane filter: keep a surface when some vertex has `z >= 1.0`. -/
def near_plane_inside (s : List (Point 3)) : Bool :=
  s.any fun p => decide (1 ≤ p 2)

/-- The classification stage of `Object::render`: surface normal from the
cross product of the first two legs, camera-facing dot product against the
first vertex (the camera is the origin: `s[0].sub([0.0, 0.0, 0.0])`), and
orientation `TowardsCamera` exactly when the dot product is negative. -/
def make_surface (fsqrt : ℚ → ℚ) (s : List (Point 3)) : Surface :=
  let s0 := s.getD 0 fun _ => 0
  let s1 := s.getD 1 fun _ => 0
  let s2 := s.getD 2 fun _ => 0
  let vec1 := s1.sub s0
  let vec2 := s2.sub s0
  let surface_normal := (vec1.cross vec2).normalize fsqrt
  let dot := ((s0.sub fun _ => 0).normalize fsqrt).dot surface_normal
  { vertices := s
    surface_normal := surface_normal
    camera_surface_dot := dot
    orientation :=
      if dot < 0 then SurfaceOrientation.TowardsCamera
      else SurfaceOrientation.AwayFromCamera }

/-- `projection_to_ndc`. -/
def projection_to_ndc (p : Point 2) (width height : ℕ) : Point 2 :=
  fun i =>
    if i = 0 then (p 0 + (width : ℚ) / 2) / (width : ℚ)
    else (p 1 + (height : ℚ) / 2) / (height : ℚ)

/-- `ndc_to_screen`: floor to pixel coordinates, flipping y. -/
def ndc_to_screen (ndc : Point 2) (screen_size : ℕ × ℕ) : ℤ × ℤ :=
  (⌊ndc 0 * (screen_size.1 : ℚ)⌋, ⌊(1 - ndc 1) * (screen_size.2 : ℚ)⌋)

/-- `projection_to_screen`. -/
def projection_to_screen (p : Point 2) (proj_size screen_size : ℕ × ℕ) :
    ℤ × ℤ :=
  ndc_to_screen (projection_to_ndc p proj_size.1 proj_size.2) screen_size

/-- The second loop of `Object::render`, for one surface: skip surfaces
facing away, project each vertex to the `z = 1` plane (the source's
`hom_to_euc` assertion is modelled by `Option`, sequenced with `mapM`; the
source would panic where this returns `none`), skip surfaces with no
projected vertex inside the viewport test, and otherwise build the screen
triangle. -/
def surface_to_triangle (camera : Matrix 3 4) (screen_size : ℕ × ℕ)
    (s : Surface) : Option Triangle :=
  if s.orientation = SurfaceOrientation.AwayFromCamera then none
  else
    match s.vertices.mapM fun p => (camera.mulPoint p.euc_to_hom).hom_to_euc3 with
    | none => none
    | some z_space_points =>
      let any_inside :=
        z_space_points.any fun p => decide (|p 0| ≤ 1) || decide (|p 1| ≤ 1)
      if any_inside then
        let projected :=
          z_space_points.map fun p => projection_to_screen p (2, 2) screen_size
        some
          { vertices := [projected.getD 0 (0, 0), projected.getD 1 (0, 0),
              projected.getD 2 (0, 0)]
            color := make_gray_color (-s.camera_surface_dot) 0 1 }
      else none

/-- The `triangles` vector built by `Object::render` before rasterization:
transform each face, apply the near-plane filter, classify, and collect the
surviving screen triangles. -/
def visible_triangles (fsin fcos fsqrt : ℚ → ℚ) (faces : List (List (Point 3)))
    (center position : Point 3) (rotation : ℚ × ℚ × ℚ) (camera : Matrix 3 4)
    (screen_size : ℕ × ℕ) : List Triangle :=
  (((faces.map (transform_vertices fsin fcos center position rotation)).filter
        near_plane_inside).map
      (make_surface fsqrt)).filterMap
    (surface_to_triangle camera screen_size)

lemma make_surface_orientation_iff (fsqrt : ℚ → ℚ) (s : List (Point 3)) :
    (make_surface fsqrt s).orientation = SurfaceOrientation.TowardsCamera ↔
      (make_surface fsqrt s).camera_surface_dot < 0 := by
  simp only [make_surface]
  split
  · simp_all
  · simp_all

lemma neg_point_magnitude (fsqrt : ℚ → ℚ) (c : Point 3) :
    Point.magnitude fsqrt (fun i => -(c i)) = Point.magnitude fsqrt c := by
  simp [Point.magnitude, neg_sq]

lemma cross_swap (v w : Point 3) :
    w.cross v = fun i => -(v.cross w i) := by
  funext i
  fin_cases i <;> simp [Point.cross] <;> ring

lemma surface_dot_swap (fsqrt : ℚ → ℚ) (s0 s1 s2 : Point 3) :
    (make_surface fsqrt [s0, s2, s1]).camera_surface_dot
      = -(make_surface fsqrt [s0, s1, s2]).camera_surface_dot := by
  simp only [make_surface, List.getD_cons_zero, List.getD_cons_succ]
  rw [cross_swap (s1.sub s0) (s2.sub s0)]
  simp only [Point.dot, Point.normalize, Point.scale, neg_point_magnitude]
  rw [← Finset.sum_neg_distrib]
  exact Finset.sum_congr rfl fun i _ => by ring


/-- C4 (amended): reversing the winding order (exchanging `v1` and `v2`)
negates the camera-facing dot product, so a triangle facing the camera is
always culled under the reversed winding; the cull decision flips in both
directions exactly when the dot product is nonzero, and when it is zero both
windings are culled. -/
theorem winding_flip (fsqrt : ℚ → ℚ) (s0 s1 s2 : Point 3) :
    ((make_surface fsqrt [s0, s1, s2]).orientation
          = SurfaceOrientation.TowardsCamera →
        (make_surface fsqrt [s0, s2, s1]).orientation
          = SurfaceOrientation.AwayFromCamera) ∧
      ((make_surface fsqrt [s0, s1, s2]).camera_surface_dot ≠ 0 →
        ((make_surface fsqrt [s0, s1, s2]).orientation
            = SurfaceOrientation.TowardsCamera ↔
          (make_surface fsqrt [s0, s2, s1]).orientation
            = SurfaceOrientation.AwayFromCamera)) ∧
      ((make_surface fsqrt [s0, s1, s2]).camera_surface_dot = 0 →
        (make_surface fsqrt [s0, s1, s2]).orientation
            = SurfaceOrientation.AwayFromCamera ∧
          (make_surface fsqrt [s0, s2, s1]).orientation
            = SurfaceOrientation.AwayFromCamera) := by
  have hswap := surface_dot_swap fsqrt s0 s1 s2
  have h1 := make_surface_orientation_iff fsqrt [s0, s1, s2]
  have h2 := make_surface_orientation_iff fsqrt [s0, s2, s1]
  have haway : ∀ s : List (Point 3),
      (make_surface fsqrt s).orientation = SurfaceOrientation.AwayFromCamera ↔
        ¬(make_surface fsqrt s).orientation = SurfaceOrientation.TowardsCamera := by
    intro s
    cases h : (make_surface fsqrt s).orientation <;> simp [h]
  constructor
  · intro ht
    rw [haway, h2, hswap]
    have := h1.mp ht
    linarith
  constructor
  · intro hne
    rw [h1, haway, h2, hswap]
    constructor
    · intro hlt; linarith
    · intro hge
      rcases lt_trichotomy ((make_surface fsqrt [s0, s1, s2]).camera_surface_dot) 0 with h | h | h
      · exact h
      · exact absurd h hne
      · exact absurd (by linarith) hge
  · intro hz
    constructor
    · rw [haway, h1]; linarith
    · rw [haway, h2, hswap]; linarith

/-- First vertex of the zero-dot counterexample triangle: `(0, 0, 1)`. -/
def cxW0 : Point 3 := fun i => if i = 2 then 1 else 0

/-- Second vertex: `(1, 0, 1)`. -/
def cxW1 : Point 3 := fun i => if i = 1 then 0 else 1

/-- Third vertex: `(0, 0, 2)`. -/
def cxW2 : Point 3 := fun i => if i = 2 then 2 else 0

/-- Counterexample to C4 as stated: the triangle `(0,0,1), (1,0,1), (0,0,2)`
(edge-on to the camera ray: the camera-facing dot product is exactly `0`)
survives the near-plane filter and is culled under **both** winding orders,
so reversing the winding does not flip the cull decision. -/
theorem winding_flip_counterexample :
    near_plane_inside [cxW0, cxW1, cxW2] = true ∧
      (make_surface (fun _ => 1) [cxW0, cxW1, cxW2]).orientation
        = SurfaceOrientation.AwayFromCamera ∧
      (make_surface (fun _ => 1) [cxW0, cxW2, cxW1]).orientation
        = SurfaceOrientation.AwayFromCamera := by
  refine ⟨by norm_num [near_plane_inside, cxW0, cxW1, cxW2], ?_, ?_⟩ <;>
    · norm_num [make_surface, cxW0, cxW1, cxW2, Point.sub, Point.cross,
        Point.dot, Point.normalize, Point.scale, Point.magnitude,
        Fin.sum_univ_three, Fin.ext_iff, fv30, fv31, fv32]

/-- First vertex `(4, 4, 2)` of the camera-facing concrete triangle. -/
def cxV0 : Point 3 := fun i => if i = 2 then 2 else 4

/-- Second vertex `(4, 6, 2)`. -/
def cxV1 : Point 3 := fun i => if i = 0 then 4 else if i = 1 then 6 else 2

/-- Third vertex `(6, 4, 2)`. -/
def cxV2 : Point 3 := fun i => if i = 0 then 6 else if i = 1 then 4 else 2

/-- Witness for C4 (amended) at a triangle with nonzero dot product:
`(4,4,2), (4,6,2), (6,4,2)` faces the camera (dot `< 0`) and its reversed
winding is culled. -/
theorem winding_flip_witness :
    (make_surface (fun _ => 1) [cxV0, cxV1, cxV2]).camera_surface_dot ≠ 0 ∧
      ((make_surface (fun _ => 1) [cxV0, cxV1, cxV2]).orientation
          = SurfaceOrientation.TowardsCamera ↔
        (make_surface (fun _ => 1) [cxV0, cxV2, cxV1]).orientation
          = SurfaceOrientation.AwayFromCamera) := by
  have hne : (make_surface (fun _ => 1) [cxV0, cxV1, cxV2]).camera_surface_dot ≠ 0 := by
    norm_num [make_surface, cxV0, cxV1, cxV2, Point.sub, Point.cross,
      Point.dot, Point.normalize, Point.scale, Point.magnitude,
      Fin.sum_univ_three, Fin.ext_iff, fv30, fv31, fv32]
  exact ⟨hne, (winding_flip (fun _ => 1) cxV0 cxV1 cxV2).2.1 hne⟩

lemma make_surface_away_iff (fsqrt : ℚ → ℚ) (s : List (Point 3)) :
    (make_surface fsqrt s).orientation = SurfaceOrientation.AwayFromCamera ↔
      ¬(make_surface fsqrt s).camera_surface_dot < 0 := by
  simp only [make_surface]
  split
  · simp_all
  · simp_all

/-- C3 (amended): in the visibility stage every surviving triangle is
*classified* as facing the camera exactly when
`normalize(v0 − camera_position) · surface_normal < 0` (the camera position
is the origin in this pipeline); when the dot product is `≥ 0` the triangle
is culled and never rasterized; when it is `< 0` the triangle is rasterized
if and only if every vertex projection is defined (the source asserts the
homogeneous `w ≠ 0`) and some projected vertex passes the viewport test
(`|x| ≤ 1` or `|y| ≤ 1`). -/
theorem backface_classification (fsqrt : ℚ → ℚ) (camera : Matrix 3 4)
    (scr : ℕ × ℕ) (s0 s1 s2 : Point 3) :
    ((make_surface fsqrt [s0, s1, s2]).orientation
        = SurfaceOrientation.TowardsCamera ↔
      Point.dot (Point.normalize fsqrt (s0.sub fun _ => 0))
          (Point.normalize fsqrt ((s1.sub s0).cross (s2.sub s0))) < 0) ∧
      (0 ≤ (make_surface fsqrt [s0, s1, s2]).camera_surface_dot →
        surface_to_triangle camera scr (make_surface fsqrt [s0, s1, s2]) = none) ∧
      ((make_surface fsqrt [s0, s1, s2]).camera_surface_dot < 0 →
        (surface_to_triangle camera scr (make_surface fsqrt [s0, s1, s2])
            ≠ none ↔
          ∃ zs : List (Point 2),
            [s0, s1, s2].mapM
                (fun p => (camera.mulPoint p.euc_to_hom).hom_to_euc3)
              = some zs ∧
            (zs.any fun p => decide (|p 0| ≤ 1) || decide (|p 1| ≤ 1))
              = true)) := by
  have hdot : (make_surface fsqrt [s0, s1, s2]).camera_surface_dot
      = Point.dot (Point.normalize fsqrt (s0.sub fun _ => 0))
          (Point.normalize fsqrt ((s1.sub s0).cross (s2.sub s0))) := rfl
  refine ⟨?_, ?_, ?_⟩
  · rw [make_surface_orientation_iff, hdot]
  · intro h
    have haway : (make_surface fsqrt [s0, s1, s2]).orientation
        = SurfaceOrientation.AwayFromCamera :=
      (make_surface_away_iff fsqrt [s0, s1, s2]).mpr (not_lt.mpr h)
    unfold surface_to_triangle
    rw [if_pos haway]
  · intro hlt
    have htow : (make_surface fsqrt [s0, s1, s2]).orientation
        = SurfaceOrientation.TowardsCamera :=
      (make_surface_orientation_iff fsqrt [s0, s1, s2]).mpr hlt
    have hver : (make_surface fsqrt [s0, s1, s2]).vertices = [s0, s1, s2] := rfl
    unfold surface_to_triangle
    rw [htow, hver]
    cases hm : [s0, s1, s2].mapM
        (fun p => (camera.mulPoint p.euc_to_hom).hom_to_euc3) with
    | none => simp
    | some zs =>
      by_cases hany :
          (zs.any fun p => decide (|p 0| ≤ 1) || decide (|p 1| ≤ 1)) = true
      · simp only [hany]
        constructor
        · intro h
          exact ⟨zs, rfl, hany⟩
        · intro h
          simp
      · simp only [Bool.not_eq_true] at hany
        simp only [hany]
        constructor
        · intro h
          exact absurd (by simp) h
        · rintro ⟨zs', hzs', hany'⟩
          rw [Option.some_inj] at hzs'
          subst hzs'
          rw [hany] at hany'
          exact absurd hany' (by simp)

/-- First vertex `(0, 0, 2)` of the facing-and-visible concrete triangle. -/
def inV0 : Point 3 := fun i => if i = 2 then 2 else 0

/-- Second vertex `(0, 1, 2)`. -/
def inV1 : Point 3 := fun i => if i = 0 then 0 else if i = 1 then 1 else 2

/-- Third vertex `(1, 0, 2)`. -/
def inV2 : Point 3 := fun i => if i = 0 then 1 else if i = 1 then 0 else 2

/-- Projection of `inV0` to the `z = 1` plane: `(0, 0)`. -/
def inZ0 : Point 2 := fun _ => 0

/-- Projection of `inV1`: `(0, 1/2)`. -/
def inZ1 : Point 2 := fun i => if i = 0 then 0 else 1 / 2

/-- Projection of `inV2`: `(1/2, 0)`. -/
def inZ2 : Point 2 := fun i => if i = 0 then 1 / 2 else 0

/-- Witness for C3 (amended) at the concrete triangle `(0,0,2), (0,1,2),
(1,0,2)`: it faces the camera (dot `< 0`), all projections are defined, the
viewport test passes, and a triangle is in fact produced. -/
theorem backface_classification_witness :
    (make_surface (fun _ => 1) [inV0, inV1, inV2]).camera_surface_dot < 0 ∧
      surface_to_triangle (make_focal_matrix 0 0) (750, 750)
          (make_surface (fun _ => 1) [inV0, inV1, inV2]) ≠ none := by
  have hdot : (make_surface (fun _ => 1) [inV0, inV1, inV2]).camera_surface_dot < 0 := by
    norm_num [make_surface, inV0, inV1, inV2, Point.sub, Point.cross,
      Point.dot, Point.normalize, Point.scale, Point.magnitude,
      Fin.sum_univ_three, Fin.ext_iff, fv30, fv31, fv32]
  have hmap : [inV0, inV1, inV2].mapM
      (fun p => ((make_focal_matrix 0 0).mulPoint p.euc_to_hom).hom_to_euc3)
        = some [inZ0, inZ1, inZ2] := by
    have e0 : ((make_focal_matrix 0 0).mulPoint inV0.euc_to_hom).hom_to_euc3
        = some inZ0 := by
      norm_num [make_focal_matrix, mulPoint_apply, Point.euc_to_hom,
        Point.hom_to_euc3, inV0, Fin.sum_univ_four, Fin.ext_iff, fv40, fv41,
        fv42, fv43]
      funext i
      fin_cases i <;> norm_num [inZ0, inV0, make_focal_matrix, mulPoint_apply,
        Point.euc_to_hom, Fin.sum_univ_four, Fin.ext_iff, fv40, fv41, fv42, fv43]
    have e1 : ((make_focal_matrix 0 0).mulPoint inV1.euc_to_hom).hom_to_euc3
        = some inZ1 := by
      norm_num [make_focal_matrix, mulPoint_apply, Point.euc_to_hom,
        Point.hom_to_euc3, inV1, Fin.sum_univ_four, Fin.ext_iff, fv40, fv41,
        fv42, fv43]
      funext i
      fin_cases i <;> norm_num [inZ1, inV1, make_focal_matrix, mulPoint_apply,
        Point.euc_to_hom, Fin.sum_univ_four, Fin.ext_iff, fv40, fv41, fv42,
        fv43, fv20, fv21]
    have e2 : ((make_focal_matrix 0 0).mulPoint inV2.euc_to_hom).hom_to_euc3
        = some inZ2 := by
      norm_num [make_focal_matrix, mulPoint_apply, Point.euc_to_hom,
        Point.hom_to_euc3, inV2, Fin.sum_univ_four, Fin.ext_iff, fv40, fv41,
        fv42, fv43]
      funext i
      fin_cases i <;> norm_num [inZ2, inV2, make_focal_matrix, mulPoint_apply,
        Point.euc_to_hom, Fin.sum_univ_four, Fin.ext_iff, fv40, fv41, fv42,
        fv43, fv20, fv21]
    simp [List.mapM, List.mapM.loop, e0, e1, e2]
  have hany : ([inZ0, inZ1, inZ2].any
      fun p => decide (|p 0| ≤ 1) || decide (|p 1| ≤ 1)) = true := by
    norm_num [inZ0]
  exact ⟨hdot,
    ((backface_classification (fun _ => 1) (make_focal_matrix 0 0) (750, 750)
          inV0 inV1 inV2).2.2 hdot).mpr ⟨[inZ0, inZ1, inZ2], hmap, hany⟩⟩

/-- Counterexample to C3 as stated: the world-space triangle
`(4,4,2), (4,6,2), (6,4,2)` survives the near-plane filter (untransformed:
identity rotation, zero translation) and faces the camera
(dot product `< 0`), yet `Object::render` pushes **no** triangle to the
rasterizer because every projected vertex fails the viewport test
(`|x| > 1` and `|y| > 1`), so "rendered exactly when dot < 0" fails. -/
theorem backface_render_counterexample :
    near_plane_inside
        (transform_vertices (fun _ => 0) (fun _ => 1) (fun _ => 0) (fun _ => 0)
          (0, 0, 0) [cxV0, cxV1, cxV2]) = true ∧
      (make_surface (fun _ => 1)
          (transform_vertices (fun _ => 0) (fun _ => 1) (fun _ => 0)
            (fun _ => 0) (0, 0, 0) [cxV0, cxV1, cxV2])).camera_surface_dot < 0 ∧
      visible_triangles (fun _ => 0) (fun _ => 1) (fun _ => 1)
          [[cxV0, cxV1, cxV2]] (fun _ => 0) (fun _ => 0) (0, 0, 0)
          (make_focal_matrix 0 0) (750, 750) = [] := by
  refine ⟨?_, ?_, ?_⟩
  · norm_num [near_plane_inside, transform_vertices, rotate_point_with_matrix,
      make_rotation_matrix, mulPoint_apply, Point.add, Point.sub,
      Fin.sum_univ_three, cxV0, cxV1, cxV2, Fin.ext_iff, fv30, fv31, fv32]
  · norm_num [make_surface, transform_vertices, rotate_point_with_matrix,
      make_rotation_matrix, mulPoint_apply, Point.add, Point.sub, Point.cross,
      Point.dot, Point.normalize, Point.scale, Point.magnitude,
      Fin.sum_univ_three, cxV0, cxV1, cxV2, Fin.ext_iff, fv30, fv31, fv32]
  · norm_num [visible_triangles, near_plane_inside, transform_vertices,
      rotate_point_with_matrix, make_rotation_matrix, surface_to_triangle,
      make_surface, Point.euc_to_hom, Point.hom_to_euc3, mulPoint_apply,
      make_focal_matrix, Point.add, Point.sub, Point.cross, Point.dot,
      Point.normalize, Point.scale, Point.magnitude, Fin.sum_univ_three,
      Fin.sum_univ_four, cxV0, cxV1, cxV2, Fin.ext_iff, fv30, fv31, fv32,
      fv40, fv41, fv42, fv43, List.mapM.loop, Option.bind]

/-! ## Screen buffer (`src/screen_buffer.rs`)

The color buffer (`Vec<u32>`) and depth buffer (`Vec<f32>`) are modelled as
functions from the flat index `y * width + x`; depth entries live in
`WithTop ℚ` so that the spec's `+infinity` (`⊤`) is expressible alongside the
finite values the code actually writes.  `1e-6` is modelled as `1/1000000`. -/

/-- The largest finite `f32`, `f32::MAX = (2 − 2⁻²³)·2¹²⁷`, the value
`ScreenBuffer::clear` actually writes into the z-buffer. -/
def f32MAX : ℚ := 2 ^ 128 - 2 ^ 104

/-- The pair of buffers threaded through the rasterizer loops. -/
abbrev Buffers := (ℕ → ℕ) × (ℕ → WithTop ℚ)

/-- `ScreenBuffer`. -/
structure ScreenBuffer where
  width : ℕ
  height : ℕ
  buffer : ℕ → ℕ
  z_buffer : ℕ → WithTop ℚ

/-- `ScreenBuffer::new`: color entries `0`, z-buffer entries `0.0` (the
`vec![0.0; width * height]` initializer — not `+infinity`). -/
def ScreenBuffer.new (width height : ℕ) : ScreenBuffer :=
  { width := width
    height := height
    buffer := fun _ => 0
    z_buffer := fun _ => ((0 : ℚ) : WithTop ℚ) }

/-- `ScreenBuffer::clear`: fill the color buffer with the given color and the
z-buffer with `f32::MAX`. -/
def ScreenBuffer.clear (s : ScreenBuffer) (color : ℕ) : ScreenBuffer :=
  { s with
    buffer := fun _ => color
    z_buffer := fun _ => (f32MAX : WithTop ℚ) }

/-- `ProjectedPoint` (`src/world/projection.rs`). -/
structure ProjectedPoint where
  x : ℚ
  y : ℚ
  z : ℚ
deriving DecidableEq

/-- `ProjectedTriangle`. -/
structure ProjectedTriangle where
  v0 : ProjectedPoint
  v1 : ProjectedPoint
  v2 : ProjectedPoint
deriving DecidableEq

/-- The signed area `0.5 * ((v1.x - v0.x) * (v2.y - v0.y) - (v2.x - v0.x) *
(v1.y - v0.y))` computed by `fill_projected_triangle`. -/
def tri_area (t : ProjectedTriangle) : ℚ :=
  (1 / 2) * ((t.v1.x - t.v0.x) * (t.v2.y - t.v0.y)
    - (t.v2.x - t.v0.x) * (t.v1.y - t.v0.y))

/-- The `(A, B, C)` coefficients of the edge function for the edge `p → q`:
`E(x, y) = (y_i − y_j)x + (x_j − x_i)y + (x_i y_j − x_j y_i)`. -/
def edge_coeffs (p q : ProjectedPoint) : ℚ × ℚ × ℚ :=
  (p.y - q.y, q.x - p.x, p.x * q.y - q.x * p.y)

/-- Evaluate an edge function at a point. -/
def edge_at (e : ℚ × ℚ × ℚ) (px py : ℚ) : ℚ :=
  e.1 * px + e.2.1 * py + e.2.2

/-- Componentwise sum of edge-value triples (the `+= step` updates). -/
def ev3_add (u v : ℚ × ℚ × ℚ) : ℚ × ℚ × ℚ :=
  (u.1 + v.1, u.2.1 + v.2.1, u.2.2 + v.2.2)

/-- Componentwise scaling of an edge-value triple. -/
def ev3_smul (c : ℚ) (v : ℚ × ℚ × ℚ) : ℚ × ℚ × ℚ :=
  (c * v.1, c * v.2.1, c * v.2.2)

/-- The per-pixel constants of one `fill_projected_triangle` call. -/
structure FillCtx where
  width : ℕ
  color : ℕ
  area : ℚ
  z0 : ℚ
  z1 : ℚ
  z2 : ℚ

/-- The perspective-correct interpolated depth at a pixel: barycentric
weights from the edge-value magnitudes (`alpha` from `edge_vals[1]`, `beta`
from `edge_vals[2]`, `gamma` from `edge_vals[0]`), normalized when their sum
exceeds `1e-6`, then `1/z` interpolated and inverted. -/
def interp_depth (area z0 z1 z2 : ℚ) (ev : ℚ × ℚ × ℚ) : ℚ :=
  let w0 := |ev.2.1| / (2 * |area|)
  let w1 := |ev.2.2| / (2 * |area|)
  let w2 := |ev.1| / (2 * |area|)
  let sum := w0 + w1 + w2
  let w0 := if 1 / 1000000 < sum then w0 / sum else w0
  let w1 := if 1 / 1000000 < sum then w1 / sum else w1
  let w2 := if 1 / 1000000 < sum then w2 / sum else w2
  let one_over_z := w0 * (1 / z0) + w1 * (1 / z1) + w2 * (1 / z2)
  1 / one_over_z

/-- The body of the inner rasterizer loop at one pixel: if the pixel is
inside (all three edge values `>= 0`), run the z-buffer test and on success
update the z-buffer entry and the color entry together. -/
def pixel_write (ctx : FillCtx) (x y : ℤ) (ev : ℚ × ℚ × ℚ) (st : Buffers) :
    Buffers :=
  if 0 ≤ ev.1 ∧ 0 ≤ ev.2.1 ∧ 0 ≤ ev.2.2 then
    let z_interpolated := interp_depth ctx.area ctx.z0 ctx.z1 ctx.z2 ev
    let buffer_index := (y * ctx.width + x).toNat
    if (z_interpolated : WithTop ℚ) < st.2 buffer_index then
      (Function.update st.1 buffer_index ctx.color,
        Function.update st.2 buffer_index (z_interpolated : WithTop ℚ))
    else st
  else st

/-- The inner loop `for x in min_x..=max_x`, stepping the edge values by
`step_x` after each pixel. -/
def col_loop (ctx : FillCtx) (step_x : ℚ × ℚ × ℚ) (y : ℤ) :
    List ℤ → (ℚ × ℚ × ℚ) → Buffers → Buffers
  | [], _, st => st
  | x :: xs, ev, st =>
      col_loop ctx step_x y xs (ev3_add ev step_x) (pixel_write ctx x y ev st)

/-- The outer loop `for y in min_y..=max_y`, stepping the row edge values by
`step_y` after each row. -/
def row_loop (ctx : FillCtx) (step_x step_y : ℚ × ℚ × ℚ) (xs : List ℤ) :
    List ℤ → (ℚ × ℚ × ℚ) → Buffers → Buffers
  | [], _, st => st
  | y :: ys, row_ev, st =>
      row_loop ctx step_x step_y xs ys (ev3_add row_ev step_y)
        (col_loop ctx step_x y xs row_ev st)

/-- The inclusive integer range `a..=b` as a list. -/
def intRange (a b : ℤ) : List ℤ :=
  (List.range (b + 1 - a).toNat).map fun i : ℕ => a + (i : ℤ)

/-- Left edge of the clamped bounding box. -/
def fill_min_x (t : ProjectedTriangle) : ℤ :=
  ratTrunc (max (min (min t.v0.x t.v1.x) t.v2.x) 0)

/-- Top edge of the clamped bounding box. -/
def fill_min_y (t : ProjectedTriangle) : ℤ :=
  ratTrunc (max (min (min t.v0.y t.v1.y) t.v2.y) 0)

/-- Right edge of the clamped bounding box. -/
def fill_max_x (s : ScreenBuffer) (t : ProjectedTriangle) : ℤ :=
  ratTrunc (min (max (max t.v0.x t.v1.x) t.v2.x) ((s.width : ℚ) - 1))

/-- Bottom edge of the clamped bounding box. -/
def fill_max_y (s : ScreenBuffer) (t : ProjectedTriangle) : ℤ :=
  ratTrunc (min (max (max t.v0.y t.v1.y) t.v2.y) ((s.height : ℚ) - 1))

/-- `ScreenBuffer::fill_projected_triangle`: bounding box clamped to the
screen, degenerate-area early return, edge functions with incremental
stepping, and the per-pixel z-buffered fill. -/
def fill_projected_triangle (s : ScreenBuffer) (t : ProjectedTriangle)
    (color : ℕ) : ScreenBuffer :=
  let area := tri_area t
  if |area| < 1 / 1000000 then s
  else
    let edge0 := edge_coeffs t.v0 t.v1
    let edge1 := edge_coeffs t.v1 t.v2
    let edge2 := edge_coeffs t.v2 t.v0
    let step_x := (edge0.1, edge1.1, edge2.1)
    let step_y := (edge0.2.1, edge1.2.1, edge2.2.1)
    let start_x := (fill_min_x t : ℚ) + 1 / 2
    let start_y := (fill_min_y t : ℚ) + 1 / 2
    let row0 := (edge_at edge0 start_x start_y, edge_at edge1 start_x start_y,
      edge_at edge2 start_x start_y)
    let ctx : FillCtx :=
      { width := s.width, color := color, area := area,
        z0 := t.v0.z, z1 := t.v1.z, z2 := t.v2.z }
    let st := row_loop ctx step_x step_y (intRange (fill_min_x t) (fill_max_x s t))
      (intRange (fill_min_y t) (fill_max_y s t)) row0 (s.buffer, s.z_buffer)
    { s with buffer := st.1, z_buffer := st.2 }

/-- C7 counterexample: after `clear`, a z-buffer entry equals `f32::MAX`, a
finite value — not `+infinity` (`⊤`) as the claim states. -/
theorem clear_zbuffer_not_infinity :
    ((ScreenBuffer.new 2 2).clear 5).z_buffer 0 ≠ (⊤ : WithTop ℚ) := by
  simp [ScreenBuffer.clear]

/-- C7 (amended): after every `clear(color)`, every color entry equals
`color` and every z-buffer entry equals `f32::MAX` (the largest finite
`f32`), the value the code writes in place of the spec's `+infinity`. -/
theorem clear_spec (s : ScreenBuffer) (color : ℕ) :
    ∀ i, (s.clear color).buffer i = color ∧
      (s.clear color).z_buffer i = (f32MAX : WithTop ℚ) :=
  fun _ => ⟨rfl, rfl⟩

lemma interp_depth_nonneg (area z0 z1 z2 : ℚ) (ev : ℚ × ℚ × ℚ)
    (h0 : 0 < z0) (h1 : 0 < z1) (h2 : 0 < z2) :
    0 ≤ interp_depth area z0 z1 z2 ev := by
  unfold interp_depth
  dsimp only
  have harea : (0 : ℚ) ≤ 2 * |area| := by positivity
  have hw0 : (0 : ℚ) ≤ |ev.2.1| / (2 * |area|) := by positivity
  have hw1 : (0 : ℚ) ≤ |ev.2.2| / (2 * |area|) := by positivity
  have hw2 : (0 : ℚ) ≤ |ev.1| / (2 * |area|) := by positivity
  have hsum : (0 : ℚ) ≤ |ev.2.1| / (2 * |area|) + |ev.2.2| / (2 * |area|)
      + |ev.1| / (2 * |area|) := by positivity
  split <;> positivity

lemma pixel_write_zero_zbuf (ctx : FillCtx) (x y : ℤ) (ev : ℚ × ℚ × ℚ)
    (st : Buffers) (h0 : 0 < ctx.z0) (h1 : 0 < ctx.z1) (h2 : 0 < ctx.z2)
    (hzb : ∀ i, st.2 i = ((0 : ℚ) : WithTop ℚ)) :
    pixel_write ctx x y ev st = st := by
  unfold pixel_write
  split
  · dsimp only
    rw [hzb]
    rw [if_neg]
    simp only [WithTop.coe_lt_coe, not_lt]
    exact interp_depth_nonneg ctx.area ctx.z0 ctx.z1 ctx.z2 ev h0 h1 h2
  · rfl

lemma col_loop_zero_zbuf (ctx : FillCtx) (step_x : ℚ × ℚ × ℚ) (y : ℤ)
    (h0 : 0 < ctx.z0) (h1 : 0 < ctx.z1) (h2 : 0 < ctx.z2) :
    ∀ (xs : List ℤ) (ev : ℚ × ℚ × ℚ) (st : Buffers),
      (∀ i, st.2 i = ((0 : ℚ) : WithTop ℚ)) →
      col_loop ctx step_x y xs ev st = st := by
  intro xs
  induction xs with
  | nil => intro ev st _; rfl
  | cons x xs ih =>
      intro ev st hzb
      unfold col_loop
      rw [pixel_write_zero_zbuf ctx x y ev st h0 h1 h2 hzb]
      exact ih _ st hzb

lemma row_loop_zero_zbuf (ctx : FillCtx) (step_x step_y : ℚ × ℚ × ℚ)
    (xs : List ℤ) (h0 : 0 < ctx.z0) (h1 : 0 < ctx.z1) (h2 : 0 < ctx.z2) :
    ∀ (ys : List ℤ) (row_ev : ℚ × ℚ × ℚ) (st : Buffers),
      (∀ i, st.2 i = ((0 : ℚ) : WithTop ℚ)) →
      row_loop ctx step_x step_y xs ys row_ev st = st := by
  intro ys
  induction ys with
  | nil => intro row_ev st _; rfl
  | cons y ys ih =>
      intro row_ev st hzb
      unfold row_loop
      rw [col_loop_zero_zbuf ctx step_x y h0 h1 h2 xs row_ev st hzb]
      exact ih _ st hzb

/-- C10: a freshly constructed `ScreenBuffer` (before the first `clear`) has
every z-buffer entry equal to `0.0` — not `+infinity` —, and consequently
`fill_projected_triangle` of any triangle whose three vertex depths are
positive writes nothing: the interpolated depth is nonnegative, so it never
beats `0.0`, and the buffer comes back unchanged. -/
theorem fresh_buffer_fill_noop (w h : ℕ) (t : ProjectedTriangle) (c : ℕ)
    (h0 : 0 < t.v0.z) (h1 : 0 < t.v1.z) (h2 : 0 < t.v2.z) :
    (∀ i, (ScreenBuffer.new w h).z_buffer i = ((0 : ℚ) : WithTop ℚ) ∧
        (ScreenBuffer.new w h).z_buffer i ≠ (⊤ : WithTop ℚ)) ∧
      fill_projected_triangle (ScreenBuffer.new w h) t c = ScreenBuffer.new w h := by
  refine ⟨fun i => ⟨rfl, by simp [ScreenBuffer.new]⟩, ?_⟩
  unfold fill_projected_triangle
  dsimp only
  split
  · rfl
  · rw [row_loop_zero_zbuf _ _ _ _ h0 h1 h2 _ _ _ (fun _ => rfl)]

/-- Witness for C10 at a concrete triangle with positive vertex depths. -/
theorem fresh_buffer_fill_noop_witness :
    0 < (ProjectedTriangle.mk ⟨1, 1, 1⟩ ⟨5, 1, 1⟩ ⟨1, 5, 1⟩).v0.z ∧
      fill_projected_triangle (ScreenBuffer.new 10 10)
          (ProjectedTriangle.mk ⟨1, 1, 1⟩ ⟨5, 1, 1⟩ ⟨1, 5, 1⟩) 7
        = ScreenBuffer.new 10 10 :=
  ⟨by norm_num,
    (fresh_buffer_fill_noop 10 10 (ProjectedTriangle.mk ⟨1, 1, 1⟩ ⟨5, 1, 1⟩ ⟨1, 5, 1⟩)
        7 (by norm_num) (by norm_num) (by norm_num)).2⟩

/-! ### C2: pixel-level characterization of `fill_projected_triangle` -/

/-- The edge values tested at the center of pixel `(x, y)` (the incremental
accumulators of the loops equal these closed forms exactly, because the
arithmetic is exact). -/
def pixel_edge_vals (t : ProjectedTriangle) (x y : ℤ) : ℚ × ℚ × ℚ :=
  (edge_at (edge_coeffs t.v0 t.v1) ((x : ℚ) + 1 / 2) ((y : ℚ) + 1 / 2),
    edge_at (edge_coeffs t.v1 t.v2) ((x : ℚ) + 1 / 2) ((y : ℚ) + 1 / 2),
    edge_at (edge_coeffs t.v2 t.v0) ((x : ℚ) + 1 / 2) ((y : ℚ) + 1 / 2))

/-- A pixel is inside the triangle when all three edge values at its center
are nonnegative (the code's `inside` test). -/
def pixel_inside (t : ProjectedTriangle) (x y : ℤ) : Prop :=
  0 ≤ (pixel_edge_vals t x y).1 ∧ 0 ≤ (pixel_edge_vals t x y).2.1 ∧
    0 ≤ (pixel_edge_vals t x y).2.2

/-- The perspective-correct interpolated depth at pixel `(x, y)`. -/
def pixel_depth (t : ProjectedTriangle) (x y : ℤ) : ℚ :=
  interp_depth (tri_area t) t.v0.z t.v1.z t.v2.z (pixel_edge_vals t x y)

/-- What one pixel visit does to the pair (color entry, z entry) at its own
buffer index. -/
def pixel_result (ctx : FillCtx) (ev : ℚ × ℚ × ℚ) (v : ℕ × WithTop ℚ) :
    ℕ × WithTop ℚ :=
  if 0 ≤ ev.1 ∧ 0 ≤ ev.2.1 ∧ 0 ≤ ev.2.2 then
    if ((interp_depth ctx.area ctx.z0 ctx.z1 ctx.z2 ev : ℚ) : WithTop ℚ) < v.2 then
      (ctx.color, ((interp_depth ctx.area ctx.z0 ctx.z1 ctx.z2 ev : ℚ) : WithTop ℚ))
    else v
  else v

lemma ratTrunc_nonneg {q : ℚ} (h : 0 ≤ q) : 0 ≤ ratTrunc q := by
  unfold ratTrunc
  rw [if_pos h]
  exact Int.floor_nonneg.mpr h

lemma ratTrunc_le_int {q : ℚ} {n : ℤ} (h : q ≤ (n : ℚ)) : ratTrunc q ≤ n := by
  unfold ratTrunc
  split
  · calc ⌊q⌋ ≤ ⌊(n : ℚ)⌋ := Int.floor_le_floor h
      _ = n := Int.floor_intCast n
  · have hceil : -⌊-q⌋ = ⌈q⌉ := by
      rw [Int.floor_neg, neg_neg]
    rw [hceil]
    exact Int.ceil_le.mpr h

lemma grid_index_inj {w : ℕ} {y1 y2 x1 x2 : ℤ} (hx1 : 0 ≤ x1)
    (hx1w : x1 < (w : ℤ)) (hx2 : 0 ≤ x2) (hx2w : x2 < (w : ℤ)) (hy1 : 0 ≤ y1)
    (hy2 : 0 ≤ y2) (h : (y1 * w + x1).toNat = (y2 * w + x2).toNat) :
    y1 = y2 ∧ x1 = x2 := by
  have hww : (0 : ℤ) < (w : ℤ) := lt_of_le_of_lt hx1 hx1w
  have hnn1 : 0 ≤ y1 * w + x1 := add_nonneg (mul_nonneg hy1 (le_of_lt hww)) hx1
  have hnn2 : 0 ≤ y2 * w + x2 := add_nonneg (mul_nonneg hy2 (le_of_lt hww)) hx2
  have heq : y1 * w + x1 = y2 * w + x2 := by omega
  have hy : y1 = y2 := by
    by_contra hne
    have hd : (y1 - y2) * w = x2 - x1 := by ring_nf; linarith
    have h1 : (1 : ℤ) ≤ |y1 - y2| := Int.one_le_abs (sub_ne_zero.mpr hne)
    have h2 : (w : ℤ) ≤ |y1 - y2| * w := le_mul_of_one_le_left (le_of_lt hww) h1
    have h3 : |(y1 - y2) * w| = |y1 - y2| * w := by
      rw [abs_mul, abs_of_nonneg (le_of_lt hww)]
    have h4 : |x2 - x1| < (w : ℤ) := abs_lt.mpr ⟨by linarith, by linarith⟩
    rw [← hd, h3] at h4
    linarith
  refine ⟨hy, ?_⟩
  subst hy
  omega

lemma range_map_cons (n : ℕ) (a : ℤ) :
    (List.range (n + 1)).map (fun i : ℕ => a + (i : ℤ))
      = a :: (List.range n).map fun i : ℕ => (a + 1) + (i : ℤ) := by
  rw [List.range_succ_eq_map, List.map_cons, List.map_map]
  refine congrArg₂ _ (by simp) (List.map_congr_left fun i _ => ?_)
  simp only [Function.comp]
  push_cast
  ring

lemma pixel_write_other (ctx : FillCtx) (x y : ℤ) (ev : ℚ × ℚ × ℚ)
    (st : Buffers) (i : ℕ) (hne : i ≠ (y * ctx.width + x).toNat) :
    (pixel_write ctx x y ev st).1 i = st.1 i ∧
      (pixel_write ctx x y ev st).2 i = st.2 i := by
  unfold pixel_write
  split
  · dsimp only
    split
    · exact ⟨Function.update_noteq hne _ _, Function.update_noteq hne _ _⟩
    · exact ⟨rfl, rfl⟩
  · exact ⟨rfl, rfl⟩

lemma pixel_write_own (ctx : FillCtx) (x y : ℤ) (ev : ℚ × ℚ × ℚ)
    (st : Buffers) :
    ((pixel_write ctx x y ev st).1 ((y * ctx.width + x).toNat),
        (pixel_write ctx x y ev st).2 ((y * ctx.width + x).toNat))
      = pixel_result ctx ev
          (st.1 ((y * ctx.width + x).toNat), st.2 ((y * ctx.width + x).toNat)) := by
  unfold pixel_write pixel_result
  split
  · dsimp only
    split
    · simp [Function.update_same]
    · rfl
  · rfl

lemma pixel_write_z_le (ctx : FillCtx) (x y : ℤ) (ev : ℚ × ℚ × ℚ)
    (st : Buffers) (i : ℕ) :
    (pixel_write ctx x y ev st).2 i ≤ st.2 i := by
  unfold pixel_write
  split
  · dsimp only
    split
    next hz =>
      dsimp only
      rcases eq_or_ne i ((y * ctx.width + x).toNat) with heq | hne
      · subst heq
        rw [Function.update_same]
        exact le_of_lt hz
      · rw [Function.update_noteq hne]
    next => exact le_refl _
  · exact le_refl _

lemma col_loop_z_le (ctx : FillCtx) (step_x : ℚ × ℚ × ℚ) (y : ℤ) :
    ∀ (xs : List ℤ) (ev : ℚ × ℚ × ℚ) (st : Buffers) (i : ℕ),
      (col_loop ctx step_x y xs ev st).2 i ≤ st.2 i := by
  intro xs
  induction xs with
  | nil => intro ev st i; exact le_refl _
  | cons x xs ih =>
      intro ev st i
      exact le_trans (ih _ _ i) (pixel_write_z_le ctx x y ev st i)

lemma row_loop_z_le (ctx : FillCtx) (step_x step_y : ℚ × ℚ × ℚ)
    (xs : List ℤ) :
    ∀ (ys : List ℤ) (row_ev : ℚ × ℚ × ℚ) (st : Buffers) (i : ℕ),
      (row_loop ctx step_x step_y xs ys row_ev st).2 i ≤ st.2 i := by
  intro ys
  induction ys with
  | nil => intro row_ev st i; exact le_refl _
  | cons y ys ih =>
      intro row_ev st i
      exact le_trans (ih _ _ i) (col_loop_z_le ctx step_x y xs row_ev st i)

lemma col_loop_untouched (ctx : FillCtx) (step_x : ℚ × ℚ × ℚ) (y : ℤ) :
    ∀ (xs : List ℤ) (ev : ℚ × ℚ × ℚ) (st : Buffers) (i : ℕ),
      (∀ x ∈ xs, i ≠ (y * ctx.width + x).toNat) →
      (col_loop ctx step_x y xs ev st).1 i = st.1 i ∧
        (col_loop ctx step_x y xs ev st).2 i = st.2 i := by
  intro xs
  induction xs with
  | nil => intro ev st i _; exact ⟨rfl, rfl⟩
  | cons x xs ih =>
      intro ev st i hmiss
      have hx := hmiss x (List.mem_cons_self x xs)
      have hrest := ih (ev3_add ev step_x) (pixel_write ctx x y ev st) i
        fun x' hx' => hmiss x' (List.mem_cons_of_mem x hx')
      have hown := pixel_write_other ctx x y ev st i hx
      exact ⟨hrest.1.trans hown.1, hrest.2.trans hown.2⟩

lemma row_loop_untouched (ctx : FillCtx) (step_x step_y : ℚ × ℚ × ℚ)
    (xs : List ℤ) :
    ∀ (ys : List ℤ) (row_ev : ℚ × ℚ × ℚ) (st : Buffers) (i : ℕ),
      (∀ y ∈ ys, ∀ x ∈ xs, i ≠ (y * ctx.width + x).toNat) →
      (row_loop ctx step_x step_y xs ys row_ev st).1 i = st.1 i ∧
        (row_loop ctx step_x step_y xs ys row_ev st).2 i = st.2 i := by
  intro ys
  induction ys with
  | nil => intro row_ev st i _; exact ⟨rfl, rfl⟩
  | cons y ys ih =>
      intro row_ev st i hmiss
      have hrow := col_loop_untouched ctx step_x y xs row_ev st i
        (hmiss y (List.mem_cons_self y ys))
      have hrest := ih (ev3_add row_ev step_y) (col_loop ctx step_x y xs row_ev st) i
        fun y' hy' => hmiss y' (List.mem_cons_of_mem y hy')
      exact ⟨hrest.1.trans hrow.1, hrest.2.trans hrow.2⟩

lemma col_loop_hit (ctx : FillCtx) (step_x : ℚ × ℚ × ℚ) (y : ℤ)
    (pev : ℤ → ℚ × ℚ × ℚ)
    (hstep : ∀ x : ℤ, pev (x + 1) = ev3_add (pev x) step_x) :
    ∀ (n : ℕ) (a : ℤ) (st : Buffers) (k : ℕ), k < n →
      (∀ j : ℕ, j < n → j ≠ k →
        (y * ctx.width + (a + (j : ℤ))).toNat
          ≠ (y * ctx.width + (a + (k : ℤ))).toNat) →
      (col_loop ctx step_x y ((List.range n).map fun i : ℕ => a + (i : ℤ))
            (pev a) st).1 ((y * ctx.width + (a + (k : ℤ))).toNat)
          = (pixel_result ctx (pev (a + (k : ℤ)))
              (st.1 ((y * ctx.width + (a + (k : ℤ))).toNat),
                st.2 ((y * ctx.width + (a + (k : ℤ))).toNat))).1 ∧
        (col_loop ctx step_x y ((List.range n).map fun i : ℕ => a + (i : ℤ))
            (pev a) st).2 ((y * ctx.width + (a + (k : ℤ))).toNat)
          = (pixel_result ctx (pev (a + (k : ℤ)))
              (st.1 ((y * ctx.width + (a + (k : ℤ))).toNat),
                st.2 ((y * ctx.width + (a + (k : ℤ))).toNat))).2 := by
  intro n
  induction n with
  | zero => intro a st k hk; exact absurd hk (Nat.not_lt_zero k)
  | succ m ih =>
      intro a st k hk hinj
      rw [range_map_cons, col_loop, ← hstep a]
      cases k with
      | zero =>
          simp only [Nat.cast_zero, add_zero] at *
          have hmiss : ∀ x' ∈ (List.range m).map fun i : ℕ => (a + 1) + (i : ℤ),
              (y * ctx.width + a).toNat ≠ (y * ctx.width + x').toNat := by
            intro x' hx'
            obtain ⟨j, hj, rfl⟩ := List.mem_map.mp hx'
            have hj' := List.mem_range.mp hj
            have e : (a + 1) + (j : ℤ) = a + ((j + 1 : ℕ) : ℤ) := by
              push_cast; ring
            rw [e]
            exact fun hcontra =>
              hinj (j + 1) (by omega) (by omega) hcontra.symm
          have hunt := col_loop_untouched ctx step_x y
            ((List.range m).map fun i : ℕ => (a + 1) + (i : ℤ)) (pev (a + 1))
            (pixel_write ctx a y (pev a) st) ((y * ctx.width + a).toNat) hmiss
          have hown := pixel_write_own ctx a y (pev a) st
          exact ⟨hunt.1.trans (congrArg Prod.fst hown),
            hunt.2.trans (congrArg Prod.snd hown)⟩
      | succ k' =>
          have e : a + ((k' + 1 : ℕ) : ℤ) = (a + 1) + (k' : ℤ) := by
            push_cast; ring
          rw [e]
          have hne : ((y * ctx.width + ((a + 1) + (k' : ℤ))).toNat)
              ≠ (y * ctx.width + a).toNat := by
            have h0 := hinj 0 (by omega) (by omega)
            simp only [Nat.cast_zero, add_zero] at h0
            rw [← e]
            exact h0.symm
          have hother := pixel_write_other ctx a y (pev a) st
            ((y * ctx.width + ((a + 1) + (k' : ℤ))).toNat) hne
          have hinj' : ∀ j : ℕ, j < m → j ≠ k' →
              (y * ctx.width + ((a + 1) + (j : ℤ))).toNat
                ≠ (y * ctx.width + ((a + 1) + (k' : ℤ))).toNat := by
            intro j hj hjk
            have ej : (a + 1) + (j : ℤ) = a + ((j + 1 : ℕ) : ℤ) := by
              push_cast; ring
            rw [ej, ← e]
            exact hinj (j + 1) (by omega) (by omega)
          have := ih (a + 1) (pixel_write ctx a y (pev a) st) k' (by omega) hinj'
          rw [hother.1, hother.2] at this
          exact this

lemma row_loop_hit (ctx : FillCtx) (step_x step_y : ℚ × ℚ × ℚ) (nX : ℕ)
    (aX : ℤ) (rowPev : ℤ → ℚ × ℚ × ℚ)
    (hrowstep : ∀ y : ℤ, rowPev (y + 1) = ev3_add (rowPev y) step_y)
    (colPev : ℤ → ℤ → ℚ × ℚ × ℚ)
    (hcolstart : ∀ y : ℤ, colPev y aX = rowPev y)
    (hcolstep : ∀ y x : ℤ, colPev y (x + 1) = ev3_add (colPev y x) step_x) :
    ∀ (n : ℕ) (b : ℤ) (st : Buffers) (ky k : ℕ), ky < n → k < nX →
      (∀ j2 k2 : ℕ, j2 < n → k2 < nX → ¬(j2 = ky ∧ k2 = k) →
        ((b + (j2 : ℤ)) * ctx.width + (aX + (k2 : ℤ))).toNat
          ≠ ((b + (ky : ℤ)) * ctx.width + (aX + (k : ℤ))).toNat) →
      (row_loop ctx step_x step_y
            ((List.range nX).map fun i : ℕ => aX + (i : ℤ))
            ((List.range n).map fun i : ℕ => b + (i : ℤ)) (rowPev b) st).1
            (((b + (ky : ℤ)) * ctx.width + (aX + (k : ℤ))).toNat)
          = (pixel_result ctx (colPev (b + (ky : ℤ)) (aX + (k : ℤ)))
              (st.1 (((b + (ky : ℤ)) * ctx.width + (aX + (k : ℤ))).toNat),
                st.2 (((b + (ky : ℤ)) * ctx.width + (aX + (k : ℤ))).toNat))).1 ∧
        (row_loop ctx step_x step_y
            ((List.range nX).map fun i : ℕ => aX + (i : ℤ))
            ((List.range n).map fun i : ℕ => b + (i : ℤ)) (rowPev b) st).2
            (((b + (ky : ℤ)) * ctx.width + (aX + (k : ℤ))).toNat)
          = (pixel_result ctx (colPev (b + (ky : ℤ)) (aX + (k : ℤ)))
              (st.1 (((b + (ky : ℤ)) * ctx.width + (aX + (k : ℤ))).toNat),
                st.2 (((b + (ky : ℤ)) * ctx.width + (aX + (k : ℤ))).toNat))).2 := by
  intro n
  induction n with
  | zero => intro b st ky k hky; exact absurd hky (Nat.not_lt_zero ky)
  | succ m ih =>
      intro b st ky k hky hk hinj
      rw [range_map_cons (a := b), row_loop, ← hrowstep b]
      cases ky with
      | zero =>
          simp only [Nat.cast_zero, add_zero] at hinj ⊢
          rw [← hcolstart b]
          have hinjcol : ∀ j : ℕ, j < nX → j ≠ k →
              (b * ctx.width + (aX + (j : ℤ))).toNat
                ≠ (b * ctx.width + (aX + (k : ℤ))).toNat := by
            intro j hj hjk
            have h := hinj 0 j (by omega) hj fun hand => hjk hand.2
            simpa using h
          have hcol := col_loop_hit ctx step_x b (colPev b) (hcolstep b) nX aX
            st k hk hinjcol
          have hmiss : ∀ y' ∈ (List.range m).map fun i : ℕ => (b + 1) + (i : ℤ),
              ∀ x' ∈ (List.range nX).map fun i : ℕ => aX + (i : ℤ),
              (b * ctx.width + (aX + (k : ℤ))).toNat
                ≠ (y' * ctx.width + x').toNat := by
            intro y' hy' x' hx'
            obtain ⟨j, hj, rfl⟩ := List.mem_map.mp hy'
            obtain ⟨k2, hk2, rfl⟩ := List.mem_map.mp hx'
            have ej : (b + 1) + (j : ℤ) = b + ((j + 1 : ℕ) : ℤ) := by
              push_cast; ring
            rw [ej]
            have hj' := List.mem_range.mp hj
            exact (hinj (j + 1) k2 (by omega) (List.mem_range.mp hk2)
              fun hand => by omega).symm
          have hunt := row_loop_untouched ctx step_x step_y
            ((List.range nX).map fun i : ℕ => aX + (i : ℤ))
            ((List.range m).map fun i : ℕ => (b + 1) + (i : ℤ))
            (rowPev (b + 1))
            (col_loop ctx step_x b
              ((List.range nX).map fun i : ℕ => aX + (i : ℤ))
              (colPev b aX) st)
            ((b * ctx.width + (aX + (k : ℤ))).toNat) hmiss
          exact ⟨hunt.1.trans hcol.1, hunt.2.trans hcol.2⟩
      | succ ky' =>
          have e : b + ((ky' + 1 : ℕ) : ℤ) = (b + 1) + (ky' : ℤ) := by
            push_cast; ring
          rw [e]
          have hmiss0 : ∀ x' ∈ (List.range nX).map fun i : ℕ => aX + (i : ℤ),
              (((b + 1) + (ky' : ℤ)) * ctx.width + (aX + (k : ℤ))).toNat
                ≠ (b * ctx.width + x').toNat := by
            intro x' hx'
            obtain ⟨k2, hk2, rfl⟩ := List.mem_map.mp hx'
            have h := hinj 0 k2 (by omega) (List.mem_range.mp hk2)
              (fun hand => by omega)
            simp only [Nat.cast_zero, add_zero] at h
            rw [← e]
            exact h.symm
          have hother := col_loop_untouched ctx step_x b
            ((List.range nX).map fun i : ℕ => aX + (i : ℤ)) (rowPev b) st
            (((b + 1) + (ky' : ℤ)) * ctx.width + (aX + (k : ℤ))).toNat hmiss0
          have hinj' : ∀ j2 k2 : ℕ, j2 < m → k2 < nX → ¬(j2 = ky' ∧ k2 = k) →
              (((b + 1) + (j2 : ℤ)) * ctx.width + (aX + (k2 : ℤ))).toNat
                ≠ (((b + 1) + (ky' : ℤ)) * ctx.width + (aX + (k : ℤ))).toNat := by
            intro j2 k2 hj2 hk2 hji
            have ej : (b + 1) + (j2 : ℤ) = b + ((j2 + 1 : ℕ) : ℤ) := by
              push_cast; ring
            rw [ej, ← e]
            exact hinj (j2 + 1) k2 (by omega) hk2 fun hand => hji ⟨by omega, hand.2⟩
          have hres := ih (b + 1)
            (col_loop ctx step_x b
              ((List.range nX).map fun i : ℕ => aX + (i : ℤ)) (rowPev b) st)
            ky' k (by omega) hk hinj'
          rw [hother.1, hother.2] at hres
          exact hres

lemma fill_eq_row_loop (s : ScreenBuffer) (t : ProjectedTriangle) (c : ℕ)
    (h : ¬|tri_area t| < 1 / 1000000) :
    fill_projected_triangle s t c =
      { s with
        buffer := (row_loop
          { width := s.width, color := c, area := tri_area t,
            z0 := t.v0.z, z1 := t.v1.z, z2 := t.v2.z }
          ((edge_coeffs t.v0 t.v1).1, (edge_coeffs t.v1 t.v2).1,
            (edge_coeffs t.v2 t.v0).1)
          ((edge_coeffs t.v0 t.v1).2.1, (edge_coeffs t.v1 t.v2).2.1,
            (edge_coeffs t.v2 t.v0).2.1)
          (intRange (fill_min_x t) (fill_max_x s t))
          (intRange (fill_min_y t) (fill_max_y s t))
          (edge_at (edge_coeffs t.v0 t.v1) ((fill_min_x t : ℚ) + 1 / 2)
              ((fill_min_y t : ℚ) + 1 / 2),
            edge_at (edge_coeffs t.v1 t.v2) ((fill_min_x t : ℚ) + 1 / 2)
              ((fill_min_y t : ℚ) + 1 / 2),
            edge_at (edge_coeffs t.v2 t.v0) ((fill_min_x t : ℚ) + 1 / 2)
              ((fill_min_y t : ℚ) + 1 / 2))
          (s.buffer, s.z_buffer)).1,
        z_buffer := (row_loop
          { width := s.width, color := c, area := tri_area t,
            z0 := t.v0.z, z1 := t.v1.z, z2 := t.v2.z }
          ((edge_coeffs t.v0 t.v1).1, (edge_coeffs t.v1 t.v2).1,
            (edge_coeffs t.v2 t.v0).1)
          ((edge_coeffs t.v0 t.v1).2.1, (edge_coeffs t.v1 t.v2).2.1,
            (edge_coeffs t.v2 t.v0).2.1)
          (intRange (fill_min_x t) (fill_max_x s t))
          (intRange (fill_min_y t) (fill_max_y s t))
          (edge_at (edge_coeffs t.v0 t.v1) ((fill_min_x t : ℚ) + 1 / 2)
              ((fill_min_y t : ℚ) + 1 / 2),
            edge_at (edge_coeffs t.v1 t.v2) ((fill_min_x t : ℚ) + 1 / 2)
              ((fill_min_y t : ℚ) + 1 / 2),
            edge_at (edge_coeffs t.v2 t.v0) ((fill_min_x t : ℚ) + 1 / 2)
              ((fill_min_y t : ℚ) + 1 / 2))
          (s.buffer, s.z_buffer)).2 } := by
  unfold fill_projected_triangle
  dsimp only
  rw [if_neg h]

lemma fill_z_le (s : ScreenBuffer) (t : ProjectedTriangle) (c : ℕ) (i : ℕ) :
    (fill_projected_triangle s t c).z_buffer i ≤ s.z_buffer i := by
  unfold fill_projected_triangle
  dsimp only
  split
  · exact le_refl _
  · exact row_loop_z_le _ _ _ _ _ _ _ i

/-- C2 (amended): whenever `fill_projected_triangle` actually rasterizes
(the triangle is non-degenerate: `|area| >= 1e-6`; degenerate triangles are
skipped entirely), then for every pixel of the clamped bounding box that is
inside the triangle (all three edge values at the pixel center nonnegative),
the color entry is written if and only if the perspective-correct
interpolated depth (interpolating `1/z` with the normalized barycentric
weights and inverting) is strictly less than the z-buffer entry, and in that
case the z-buffer entry and the color entry are updated together; and no
z-buffer entry ever increases during a fill (degenerate or not). -/
theorem fill_pixel_characterization (s : ScreenBuffer) (t : ProjectedTriangle)
    (c : ℕ) (harea : 1 / 1000000 ≤ |tri_area t|) :
    (∀ x y : ℤ, fill_min_x t ≤ x → x ≤ fill_max_x s t → fill_min_y t ≤ y →
      y ≤ fill_max_y s t → pixel_inside t x y →
      (((pixel_depth t x y : ℚ) : WithTop ℚ)
            < s.z_buffer ((y * s.width + x).toNat) →
          (fill_projected_triangle s t c).buffer ((y * s.width + x).toNat) = c ∧
            (fill_projected_triangle s t c).z_buffer ((y * s.width + x).toNat)
              = ((pixel_depth t x y : ℚ) : WithTop ℚ)) ∧
        (¬((pixel_depth t x y : ℚ) : WithTop ℚ)
            < s.z_buffer ((y * s.width + x).toNat) →
          (fill_projected_triangle s t c).buffer ((y * s.width + x).toNat)
              = s.buffer ((y * s.width + x).toNat) ∧
            (fill_projected_triangle s t c).z_buffer ((y * s.width + x).toNat)
              = s.z_buffer ((y * s.width + x).toNat))) ∧
      ∀ i, (fill_projected_triangle s t c).z_buffer i ≤ s.z_buffer i := by
  have hnotdeg : ¬|tri_area t| < 1 / 1000000 := not_lt.mpr harea
  refine ⟨?_, fun i => fill_z_le s t c i⟩
  intro x y hxa hxb hya hyb hins
  have ha0 : 0 ≤ fill_min_x t := ratTrunc_nonneg (le_max_right _ _)
  have hb0 : 0 ≤ fill_min_y t := ratTrunc_nonneg (le_max_right _ _)
  have hmxw : fill_max_x s t ≤ (s.width : ℤ) - 1 := by
    refine ratTrunc_le_int ?_
    push_cast
    exact min_le_right _ _
  -- the target pixel as grid offsets
  have hax : fill_min_x t + (((x - fill_min_x t).toNat : ℕ) : ℤ) = x := by omega
  have hby : fill_min_y t + (((y - fill_min_y t).toNat : ℕ) : ℤ) = y := by omega
  have hk : (x - fill_min_x t).toNat < (fill_max_x s t + 1 - fill_min_x t).toNat := by
    omega
  have hky : (y - fill_min_y t).toNat < (fill_max_y s t + 1 - fill_min_y t).toNat := by
    omega
  have hinj : ∀ j2 k2 : ℕ,
      j2 < (fill_max_y s t + 1 - fill_min_y t).toNat →
      k2 < (fill_max_x s t + 1 - fill_min_x t).toNat →
      ¬(j2 = (y - fill_min_y t).toNat ∧ k2 = (x - fill_min_x t).toNat) →
      ((fill_min_y t + (j2 : ℤ)) * s.width + (fill_min_x t + (k2 : ℤ))).toNat
        ≠ ((fill_min_y t + (((y - fill_min_y t).toNat : ℕ) : ℤ)) * s.width
          + (fill_min_x t + (((x - fill_min_x t).toNat : ℕ) : ℤ))).toNat := by
    intro j2 k2 hj2 hk2 hne hcontra
    have hbounds := grid_index_inj (w := s.width)
      (by omega) (by omega) (by omega) (by omega) (by omega) (by omega) hcontra
    omega
  -- the incrementally stepped edge values, in closed form
  have hmain := row_loop_hit
    { width := s.width, color := c, area := tri_area t,
      z0 := t.v0.z, z1 := t.v1.z, z2 := t.v2.z }
    ((edge_coeffs t.v0 t.v1).1, (edge_coeffs t.v1 t.v2).1,
      (edge_coeffs t.v2 t.v0).1)
    ((edge_coeffs t.v0 t.v1).2.1, (edge_coeffs t.v1 t.v2).2.1,
      (edge_coeffs t.v2 t.v0).2.1)
    (fill_max_x s t + 1 - fill_min_x t).toNat (fill_min_x t)
    (fun y' => ev3_add
      (edge_at (edge_coeffs t.v0 t.v1) ((fill_min_x t : ℚ) + 1 / 2)
          ((fill_min_y t : ℚ) + 1 / 2),
        edge_at (edge_coeffs t.v1 t.v2) ((fill_min_x t : ℚ) + 1 / 2)
          ((fill_min_y t : ℚ) + 1 / 2),
        edge_at (edge_coeffs t.v2 t.v0) ((fill_min_x t : ℚ) + 1 / 2)
          ((fill_min_y t : ℚ) + 1 / 2))
      (ev3_smul ((y' - fill_min_y t : ℤ) : ℚ)
        ((edge_coeffs t.v0 t.v1).2.1, (edge_coeffs t.v1 t.v2).2.1,
          (edge_coeffs t.v2 t.v0).2.1)))
    (by
      intro y'
      simp only [ev3_add, ev3_smul, Prod.mk.injEq]
      refine ⟨?_, ?_, ?_⟩ <;> (push_cast; ring))
    (fun y' x' => ev3_add
      (ev3_add
        (edge_at (edge_coeffs t.v0 t.v1) ((fill_min_x t : ℚ) + 1 / 2)
            ((fill_min_y t : ℚ) + 1 / 2),
          edge_at (edge_coeffs t.v1 t.v2) ((fill_min_x t : ℚ) + 1 / 2)
            ((fill_min_y t : ℚ) + 1 / 2),
          edge_at (edge_coeffs t.v2 t.v0) ((fill_min_x t : ℚ) + 1 / 2)
            ((fill_min_y t : ℚ) + 1 / 2))
        (ev3_smul ((y' - fill_min_y t : ℤ) : ℚ)
          ((edge_coeffs t.v0 t.v1).2.1, (edge_coeffs t.v1 t.v2).2.1,
            (edge_coeffs t.v2 t.v0).2.1)))
      (ev3_smul ((x' - fill_min_x t : ℤ) : ℚ)
        ((edge_coeffs t.v0 t.v1).1, (edge_coeffs t.v1 t.v2).1,
          (edge_coeffs t.v2 t.v0).1)))
    (by
      intro y'
      simp [ev3_add, ev3_smul])
    (by
      intro y' x'
      simp only [ev3_add, ev3_smul, Prod.mk.injEq]
      refine ⟨?_, ?_, ?_⟩ <;> (push_cast; ring))
    (fill_max_y s t + 1 - fill_min_y t).toNat (fill_min_y t)
    (s.buffer, s.z_buffer) (y - fill_min_y t).toNat (x - fill_min_x t).toNat
    hky hk hinj
  -- rewrite the starting row values and the target pixel back to (x, y)
  dsimp only at hmain
  have hstart : ev3_add
      (edge_at (edge_coeffs t.v0 t.v1) ((fill_min_x t : ℚ) + 1 / 2)
          ((fill_min_y t : ℚ) + 1 / 2),
        edge_at (edge_coeffs t.v1 t.v2) ((fill_min_x t : ℚ) + 1 / 2)
          ((fill_min_y t : ℚ) + 1 / 2),
        edge_at (edge_coeffs t.v2 t.v0) ((fill_min_x t : ℚ) + 1 / 2)
          ((fill_min_y t : ℚ) + 1 / 2))
      (ev3_smul ((fill_min_y t - fill_min_y t : ℤ) : ℚ)
        ((edge_coeffs t.v0 t.v1).2.1, (edge_coeffs t.v1 t.v2).2.1,
          (edge_coeffs t.v2 t.v0).2.1))
      = (edge_at (edge_coeffs t.v0 t.v1) ((fill_min_x t : ℚ) + 1 / 2)
          ((fill_min_y t : ℚ) + 1 / 2),
        edge_at (edge_coeffs t.v1 t.v2) ((fill_min_x t : ℚ) + 1 / 2)
          ((fill_min_y t : ℚ) + 1 / 2),
        edge_at (edge_coeffs t.v2 t.v0) ((fill_min_x t : ℚ) + 1 / 2)
          ((fill_min_y t : ℚ) + 1 / 2)) := by
    simp [ev3_add, ev3_smul]
  rw [hstart, hax, hby] at hmain
  have hpev : ev3_add
      (ev3_add
        (edge_at (edge_coeffs t.v0 t.v1) ((fill_min_x t : ℚ) + 1 / 2)
            ((fill_min_y t : ℚ) + 1 / 2),
          edge_at (edge_coeffs t.v1 t.v2) ((fill_min_x t : ℚ) + 1 / 2)
            ((fill_min_y t : ℚ) + 1 / 2),
          edge_at (edge_coeffs t.v2 t.v0) ((fill_min_x t : ℚ) + 1 / 2)
            ((fill_min_y t : ℚ) + 1 / 2))
        (ev3_smul ((y - fill_min_y t : ℤ) : ℚ)
          ((edge_coeffs t.v0 t.v1).2.1, (edge_coeffs t.v1 t.v2).2.1,
            (edge_coeffs t.v2 t.v0).2.1)))
      (ev3_smul ((x - fill_min_x t : ℤ) : ℚ)
        ((edge_coeffs t.v0 t.v1).1, (edge_coeffs t.v1 t.v2).1,
          (edge_coeffs t.v2 t.v0).1)) = pixel_edge_vals t x y := by
    simp only [ev3_add, ev3_smul, pixel_edge_vals, edge_at, edge_coeffs,
      Prod.mk.injEq]
    refine ⟨?_, ?_, ?_⟩ <;> (push_cast; ring)
  rw [hpev] at hmain
  rw [fill_eq_row_loop s t c hnotdeg]
  dsimp only
  simp only [intRange]
  rw [hmain.1, hmain.2]
  unfold pixel_result
  unfold pixel_inside at hins
  rw [if_pos hins]
  dsimp only
  constructor
  · intro hlt
    unfold pixel_depth at hlt
    rw [if_pos hlt]
    exact ⟨rfl, rfl⟩
  · intro hge
    unfold pixel_depth at hge
    rw [if_neg hge]
    exact ⟨rfl, rfl⟩

/-- A degenerate sliver triangle (area `5e-7 < 1e-6`) whose first vertex sits
exactly on the center of pixel `(1, 1)`. -/
def degTri : ProjectedTriangle :=
  ⟨⟨3 / 2, 3 / 2, 1⟩, ⟨3 / 2 + 1 / 1000, 3 / 2, 1⟩, ⟨3 / 2, 3 / 2 + 1 / 1000, 1⟩⟩

/-- A cleared 10×10 screen buffer (z-buffer at `f32::MAX`). -/
def wS : ScreenBuffer := (ScreenBuffer.new 10 10).clear 0

/-- Counterexample to C2 as stated: pixel `(1, 1)` passes the inside test of
`degTri` and its interpolated depth (`1`) beats the cleared z-buffer entry,
yet the fill writes nothing — the triangle's area is below the `1e-6`
degeneracy threshold, so `fill_projected_triangle` returns early. -/
theorem fill_degenerate_counterexample :
    pixel_inside degTri 1 1 ∧
      ((pixel_depth degTri 1 1 : ℚ) : WithTop ℚ) < wS.z_buffer 11 ∧
      (fill_projected_triangle wS degTri 7).buffer 11 = wS.buffer 11 ∧
      wS.buffer 11 ≠ 7 ∧
      (fill_projected_triangle wS degTri 7).z_buffer 11 = wS.z_buffer 11 := by
  have hdeg : |tri_area degTri| < 1 / 1000000 := by
    norm_num [tri_area, degTri, abs_of_pos]
  have hfill : fill_projected_triangle wS degTri 7 = wS := by
    unfold fill_projected_triangle
    dsimp only
    rw [if_pos hdeg]
  refine ⟨?_, ?_, by rw [hfill], by norm_num [wS, ScreenBuffer.clear], by rw [hfill]⟩
  · refine ⟨?_, ?_, ?_⟩ <;>
      norm_num [pixel_edge_vals, edge_at, edge_coeffs, degTri]
  · have hz : wS.z_buffer 11 = (f32MAX : WithTop ℚ) := rfl
    rw [hz, WithTop.coe_lt_coe]
    norm_num [pixel_depth, interp_depth, pixel_edge_vals, edge_at, edge_coeffs,
      tri_area, degTri, f32MAX, abs_of_pos, abs_of_nonneg]

/-- A concrete non-degenerate triangle for the C2 witness. -/
def wTri : ProjectedTriangle := ⟨⟨0, 0, 2⟩, ⟨4, 0, 1⟩, ⟨0, 4, 4⟩⟩

/-- Witness for C2 (amended) at pixel `(0, 0)` of `wTri` on a cleared
buffer: the pixel is inside, its depth beats `f32::MAX`, and the fill writes
color and depth together. -/
theorem fill_pixel_characterization_witness :
    1 / 1000000 ≤ |tri_area wTri| ∧
      pixel_inside wTri 0 0 ∧
      ((pixel_depth wTri 0 0 : ℚ) : WithTop ℚ) < wS.z_buffer 0 ∧
      (fill_projected_triangle wS wTri 7).buffer 0 = 7 ∧
      (fill_projected_triangle wS wTri 7).z_buffer 0
        = ((pixel_depth wTri 0 0 : ℚ) : WithTop ℚ) := by
  have harea : 1 / 1000000 ≤ |tri_area wTri| := by
    norm_num [tri_area, wTri, abs_of_pos]
  have hins : pixel_inside wTri 0 0 := by
    refine ⟨?_, ?_, ?_⟩ <;>
      norm_num [pixel_edge_vals, edge_at, edge_coeffs, wTri]
  have hxa : fill_min_x wTri ≤ 0 := by
    norm_num [fill_min_x, ratTrunc, wTri]
  have hxb : (0 : ℤ) ≤ fill_max_x wS wTri := by
    norm_num [fill_max_x, ratTrunc, wS, ScreenBuffer.clear, ScreenBuffer.new, wTri]
  have hya : fill_min_y wTri ≤ 0 := by
    norm_num [fill_min_y, ratTrunc, wTri]
  have hyb : (0 : ℤ) ≤ fill_max_y wS wTri := by
    norm_num [fill_max_y, ratTrunc, wS, ScreenBuffer.clear, ScreenBuffer.new, wTri]
  have hdepth : ((pixel_depth wTri 0 0 : ℚ) : WithTop ℚ) < wS.z_buffer 0 := by
    have hz : wS.z_buffer 0 = (f32MAX : WithTop ℚ) := rfl
    rw [hz, WithTop.coe_lt_coe]
    norm_num [pixel_depth, interp_depth, pixel_edge_vals, edge_at, edge_coeffs,
      tri_area, wTri, f32MAX, abs_of_pos, abs_of_nonneg]
  have hmain := ((fill_pixel_characterization wS wTri 7 harea).1 0 0 hxa hxb
    hya hyb hins).1 hdepth
  exact ⟨harea, hins, hdepth, hmain.1, hmain.2⟩

/-! ## Bresenham line drawing (`src/render.rs`, `Screen::draw_line`)

The `u32` pixel buffer of `Screen` is a function from the flat index.  The
`f32` slope is `NaN` when both deltas are zero and infinite when only `dx`
is; otherwise it is the exact quotient.  The inner `while err >= 0.0` loop is
modelled in closed form: it decrements `err` by `1.0` exactly
`⌊err⌋ + 1` times when `err ≥ 0` and zero times otherwise. -/

/-- `Screen` (`src/render.rs`). -/
structure Screen where
  buffer : ℕ → ℕ
  width : ℕ
  height : ℕ

/-- `Screen::new`: zero-filled buffer. -/
def Screen.new (width height : ℕ) : Screen :=
  { buffer := fun _ => 0, width := width, height := height }

/-- `Screen::outside_screen`. -/
def Screen.outside (scr : Screen) (p : ℤ × ℤ) : Prop :=
  p.1 < 0 ∨ (scr.width : ℤ) ≤ p.1 ∨ p.2 < 0 ∨ (scr.height : ℤ) ≤ p.2

instance (scr : Screen) (p : ℤ × ℤ) : Decidable (scr.outside p) := by
  unfold Screen.outside
  infer_instance

/-- `if let Some(pixel) = self.get_coords_i(x, y) { *pixel = color; }`:
write the color when the coordinates are in range, else do nothing. -/
def screen_plot (scr : Screen) (x y : ℤ) (color : ℕ) : Screen :=
  if 0 ≤ x ∧ 0 ≤ y ∧ x < (scr.width : ℤ) ∧ y < (scr.height : ℤ) then
    { scr with buffer := Function.update scr.buffer (y * scr.width + x).toNat color }
  else scr

/-- The `f32` slope `(p2.1 - p1.1) / (p2.0 - p1.0)`: `NaN` for `0/0`,
infinite for `dy/0`, exact otherwise. -/
inductive Slope where
  | nan
  | inf
  | val (q : ℚ)

/-- Compute the slope of the segment as `f32` division would classify it. -/
def f32_slope (p1 p2 : ℤ × ℤ) : Slope :=
  if p2.1 = p1.1 then (if p2.2 = p1.2 then .nan else .inf)
  else .val (((p2.2 - p1.2 : ℤ) : ℚ) / ((p2.1 - p1.1 : ℤ) : ℚ))

/-- `Screen::bring_inside`: project a point outside the screen along the
line's slope to the nearest boundary intersection (coordinates go through
`f32` and are truncated back to integers). -/
def Screen.bring_inside (scr : Screen) (p : ℤ × ℤ) (slope : Slope) : ℤ × ℤ :=
  match slope with
  | .nan => p
  | .inf =>
      if p.1 < 0 ∨ (scr.width : ℤ) ≤ p.1 then p
      else if p.2 < 0 then (p.1, 0)
      else if (scr.height : ℤ) ≤ p.2 then (p.1, (scr.height : ℤ) - 1)
      else p
  | .val m =>
      if (p.2 < 0 ∨ (scr.height : ℤ) ≤ p.2) ∧ m = 0 then p
      else if p.1 < 0 ∨ (scr.width : ℤ) ≤ p.1 then
        let new_x : ℤ := if p.1 < 0 then 0 else (scr.width : ℤ) - 1
        let dx : ℚ := (new_x : ℚ) - (p.1 : ℚ)
        (new_x, ratTrunc (dx * m + (p.2 : ℚ)))
      else if p.2 < 0 ∨ (scr.height : ℤ) ≤ p.2 then
        let new_y : ℤ := if p.2 < 0 then 0 else (scr.height : ℤ) - 1
        let dy : ℚ := (new_y : ℚ) - (p.2 : ℚ)
        (ratTrunc (dy / m + (p.1 : ℚ)), new_y)
      else p

/-- How many times `while err >= 0.0 { err -= 1.0; }` iterates. -/
def while_steps (err : ℚ) : ℕ :=
  if 0 ≤ err then (⌊err⌋ + 1).toNat else 0

/-- The main Bresenham loop `for _ in 1..=dx`: plot the current pixel, step
the minor axis while the error is nonnegative, step the major axis, add the
slope fraction to the error. -/
def line_loop (color : ℕ) (sign_x sign_y : ℤ) (swapped : Bool) (m : ℚ) :
    ℕ → Screen → ℤ → ℤ → ℚ → Screen
  | 0, scr, _, _, _ => scr
  | n + 1, scr, x, y, err =>
      let scr' := screen_plot scr x y color
      let k := while_steps err
      let x' := if swapped then x + sign_x * (k : ℤ) else x
      let y' := if swapped then y else y + sign_y * (k : ℤ)
      let err' := err - (k : ℚ)
      let x'' := if swapped then x' else x' + sign_x
      let y'' := if swapped then y' + sign_y else y'
      line_loop color sign_x sign_y swapped m n scr' x'' y'' (err' + m)

/-- `Screen::draw_line`: clip endpoints that are outside the screen, give up
if either is still outside, then run the Bresenham loop and plot the final
endpoint unconditionally. -/
def Screen.draw_line (scr : Screen) (p1 p2 : ℤ × ℤ) (color : ℕ) : Screen :=
  let slope := f32_slope p1 p2
  let q1 := if scr.outside p1 then scr.bring_inside p1 slope else p1
  let q2 := if scr.outside p2 then scr.bring_inside p2 slope else p2
  if scr.outside q1 ∨ scr.outside q2 then scr
  else
    let dx0 := |q2.1 - q1.1|
    let dy0 := |q2.2 - q1.2|
    let sign_x := Int.sign (q2.1 - q1.1)
    let sign_y := Int.sign (q2.2 - q1.2)
    let swapped : Bool := decide (dx0 < dy0)
    let dx := if swapped then dy0 else dx0
    let dy := if swapped then dx0 else dy0
    let m := (dy : ℚ) / (dx : ℚ)
    let err := m - 1 / 2
    let after := line_loop color sign_x sign_y swapped m dx.toNat scr q1.1 q1.2 err
    screen_plot after q2.1 q2.2 color

lemma screen_plot_width (scr : Screen) (x y : ℤ) (c : ℕ) :
    (screen_plot scr x y c).width = scr.width ∧
      (screen_plot scr x y c).height = scr.height := by
  unfold screen_plot
  split <;> exact ⟨rfl, rfl⟩

lemma line_loop_width (color : ℕ) (sx sy : ℤ) (sw : Bool) (m : ℚ) :
    ∀ (n : ℕ) (scr : Screen) (x y : ℤ) (err : ℚ),
      (line_loop color sx sy sw m n scr x y err).width = scr.width ∧
        (line_loop color sx sy sw m n scr x y err).height = scr.height := by
  intro n
  induction n with
  | zero => intro scr x y err; exact ⟨rfl, rfl⟩
  | succ n ih =>
      intro scr x y err
      rw [line_loop]
      exact ⟨(ih _ _ _ _).1.trans (screen_plot_width scr x y color).1,
        (ih _ _ _ _).2.trans (screen_plot_width scr x y color).2⟩

lemma screen_plot_keep (scr : Screen) (x y : ℤ) (c : ℕ) (i : ℕ)
    (h : scr.buffer i = c) : (screen_plot scr x y c).buffer i = c := by
  unfold screen_plot
  split
  · dsimp only
    rcases eq_or_ne i ((y * scr.width + x).toNat) with rfl | hne
    · rw [Function.update_same]
    · rw [Function.update_noteq hne]
      exact h
  · exact h

lemma line_loop_keep (color : ℕ) (sx sy : ℤ) (sw : Bool) (m : ℚ) (i : ℕ) :
    ∀ (n : ℕ) (scr : Screen) (x y : ℤ) (err : ℚ), scr.buffer i = color →
      (line_loop color sx sy sw m n scr x y err).buffer i = color := by
  intro n
  induction n with
  | zero => intro scr x y err h; exact h
  | succ n ih =>
      intro scr x y err h
      rw [line_loop]
      exact ih _ _ _ _ (screen_plot_keep scr x y color i h)

lemma screen_plot_write (scr : Screen) (x y : ℤ) (c : ℕ) (hx : 0 ≤ x)
    (hy : 0 ≤ y) (hxw : x < (scr.width : ℤ)) (hyh : y < (scr.height : ℤ)) :
    (screen_plot scr x y c).buffer ((y * scr.width + x).toNat) = c := by
  unfold screen_plot
  rw [if_pos ⟨hx, hy, hxw, hyh⟩]
  dsimp only
  rw [Function.update_same]

/-- Transport `screen_plot_write` along equal dimensions (the loop's result
keeps the original screen's dimensions). -/
lemma screen_plot_write_of_dims (scr0 scr : Screen) (hweq : scr.width = scr0.width)
    (hheq : scr.height = scr0.height) (x y : ℤ) (c : ℕ) (hx : 0 ≤ x) (hy : 0 ≤ y)
    (hxw : x < (scr0.width : ℤ)) (hyh : y < (scr0.height : ℤ)) :
    (screen_plot scr x y c).buffer ((y * scr0.width + x).toNat) = c := by
  rw [← hweq] at hxw ⊢
  rw [← hheq] at hyh
  exact screen_plot_write scr x y c hx hy hxw hyh

/-- C9 (amended): when neither endpoint is outside the screen (so no
clipping happens), `draw_line` always writes both endpoint pixels, in either
direction; the interior pixel sets of the two directions may differ at
tie-breaks of the error accumulator. -/
theorem draw_line_endpoints (scr : Screen) (p1 p2 : ℤ × ℤ) (c : ℕ)
    (h1 : ¬scr.outside p1) (h2 : ¬scr.outside p2) :
    (scr.draw_line p1 p2 c).buffer ((p1.2 * scr.width + p1.1).toNat) = c ∧
      (scr.draw_line p1 p2 c).buffer ((p2.2 * scr.width + p2.1).toNat) = c := by
  unfold Screen.draw_line
  dsimp only
  rw [if_neg h1, if_neg h2, if_neg (fun h => h.elim h1 h2)]
  unfold Screen.outside at h1 h2
  push_neg at h1 h2
  obtain ⟨hx1, hw1, hy1, hh1⟩ := h1
  obtain ⟨hx2, hw2, hy2, hh2⟩ := h2
  constructor
  · rcases Nat.eq_zero_or_pos
        ((if decide (|p2.1 - p1.1| < |p2.2 - p1.2|) = true then |p2.2 - p1.2|
          else |p2.1 - p1.1|).toNat) with hfuel | hfuel
    · have hd0 := abs_nonneg (p2.1 - p1.1)
      have hd1 := abs_nonneg (p2.2 - p1.2)
      have habs : p2.1 = p1.1 ∧ p2.2 = p1.2 := by
        rcases Bool.eq_false_or_eq_true
            (decide (|p2.1 - p1.1| < |p2.2 - p1.2|)) with hb | hb
        · rw [hb, if_pos rfl] at hfuel
          have hlt := of_decide_eq_true hb
          omega
        · rw [hb, if_neg Bool.false_ne_true] at hfuel
          have hnlt := of_decide_eq_false hb
          have e1 : |p2.1 - p1.1| = 0 := by omega
          have e2 : |p2.2 - p1.2| = 0 := by omega
          have f1 := abs_eq_zero.mp e1
          have f2 := abs_eq_zero.mp e2
          constructor <;> omega
      rw [hfuel]
      simp only [line_loop]
      rw [habs.1, habs.2]
      exact screen_plot_write scr p1.1 p1.2 c hx1 hy1 hw1 hh1
    · obtain ⟨n, hn⟩ :=
        Nat.exists_eq_succ_of_ne_zero (Nat.pos_iff_ne_zero.mp hfuel)
      rw [hn]
      rw [line_loop]
      apply screen_plot_keep
      apply line_loop_keep
      exact screen_plot_write scr p1.1 p1.2 c hx1 hy1 hw1 hh1
  · refine screen_plot_write_of_dims scr _ ?_ ?_ p2.1 p2.2 c hx2 hy2 hw2 hh2
    · exact (line_loop_width _ _ _ _ _ _ _ _ _ _).1
    · exact (line_loop_width _ _ _ _ _ _ _ _ _ _).2

/-- Counterexample to C9 as stated: on a fresh 10×10 screen,
`draw_line((1,1), (3,2))` plots pixel `(2, 2)` (flat index 22) but
`draw_line((3,2), (1,1))` does not (it plots `(2, 1)` instead) — the
tie-break of the error accumulator (`err = 0` at the first pixel) steps the
minor axis at different positions in the two directions, so the two pixel
sets differ.  All intermediate `f32` values in this trace (slope `0.5`,
errors `0`, `-0.5`, `-1`) are exactly representable, so the exact-rational
model follows the `f32` execution bit for bit. -/
lemma int_sign_one : Int.sign 1 = 1 := rfl

lemma int_sign_two : Int.sign 2 = 1 := rfl

lemma int_sign_neg_one : Int.sign (-1) = -1 := rfl

lemma int_sign_neg_two : Int.sign (-2) = -1 := rfl

theorem draw_line_not_symmetric :
    ((Screen.new 10 10).draw_line (1, 1) (3, 2) 7).buffer 22 = 7 ∧
      ((Screen.new 10 10).draw_line (3, 2) (1, 1) 7).buffer 22 = 0 := by
  constructor <;>
    norm_num [Screen.draw_line, Screen.new, Screen.outside, f32_slope,
      line_loop, while_steps, screen_plot, Function.update,
      int_sign_one, int_sign_two, int_sign_neg_one, int_sign_neg_two,
      Int.floor_zero, Int.toNat_ofNat, abs_of_nonneg, abs_of_nonpos]
  all_goals decide

/-- Witness for C9 (amended) at concrete in-screen endpoints: both endpoint
pixels are written in the `(1,1) → (3,2)` direction. -/
theorem draw_line_endpoints_witness :
    ¬(Screen.new 10 10).outside (1, 1) ∧ ¬(Screen.new 10 10).outside (3, 2) ∧
      ((Screen.new 10 10).draw_line (1, 1) (3, 2) 7).buffer 11 = 7 ∧
      ((Screen.new 10 10).draw_line (1, 1) (3, 2) 7).buffer 23 = 7 := by
  have h1 : ¬(Screen.new 10 10).outside (1, 1) := by decide
  have h2 : ¬(Screen.new 10 10).outside (3, 2) := by decide
  have h := draw_line_endpoints (Screen.new 10 10) (1, 1) (3, 2) 7 h1 h2
  exact ⟨h1, h2, h.1, h.2⟩

end Shapes
